import Mathlib

/-!
Verification of the reconciliation core of `sync_commands.py`.

Text is embedded as `List Char` (Python strings are immutable character
sequences).  Filesystem directories are embedded as association lists from
entry name to entry; symbolic-link identity is embedded by inode numbers,
so that `os.path.samefile` becomes inode equality and canonical resolution
becomes a `Resolved` record (parent directory identity, final name, inode).
Every mutation a pass performs is recorded in an operation trace, so that
"zero filesystem mutations" is a statement about the trace.
-/

/-- Text, embedded as a list of characters. -/
abbrev Str := List Char

/-- Shorthand to turn a Lean string literal into embedded text. -/
def str (s : String) : Str := s.data

/-- The single-quote character used by the YAML single-quoted style. -/
def qc : Char := Char.ofNat 39

/-- Python truthiness of an optional string (`None` and `""` are falsy). -/
def truthy : Option Str → Bool
  | none => false
  | some [] => false
  | some (_ :: _) => true

/-- Embeds `_get_output_stem` from `sync_commands.py`: if the optional
prefix is truthy and the stem starts with it, the prefix is dropped and
the remainder returned, except that an empty remainder yields `none`;
otherwise the stem is returned unchanged.  (The empty-string warning is a
log line with no effect on the result.) -/
def _get_output_stem (source_stem : Str) (sp : Option Str) : Option Str :=
  match sp with
  | none => some source_stem
  | some p =>
      if p ≠ [] ∧ p.isPrefixOf source_stem then
        if source_stem.drop p.length = [] then none
        else some (source_stem.drop p.length)
      else some source_stem

/-- Embeds Python's `x or y` on an optional stem, as used in
`_should_remove_md_file` (`_get_output_stem(...) or source_stem`):
`None` and the empty string both fall back to the default. -/
def pyOr (o : Option Str) (d : Str) : Str :=
  match o with
  | none => d
  | some r => if r = [] then d else r

/-! ## Prompt extraction (`extract_prompts_to_md` and helpers) -/

/-- Filesystem mutations performed by a pass. -/
inductive Op
  | wrote (name content : Str)
  | removed (name : Str)
  | linked (name : Str)
  | unlinked (name : Str)
deriving DecidableEq

/-- A source `.toml` file: its filename stem and its parsed table
(`none` embeds a load that raised `OSError`/`ValueError`). -/
structure TomlFile where
  stem : Str
  data : Option (List (Str × Str))
deriving DecidableEq

/-- First-match key lookup in an association list (Python `dict` access
for the keys this program uses). -/
def lookupKV {α : Type} (k : Str) (m : List (Str × α)) : Option α :=
  match m with
  | [] => none
  | e :: rest => if e.1 = k then some e.2 else lookupKV k rest

/-- Write-or-overwrite of a directory entry: `open(target, "w")`. -/
def setEntry {α : Type} (dir : List (Str × α)) (k : Str) (v : α) : List (Str × α) :=
  if dir.any (fun e => e.1 = k) then
    dir.map (fun e => if e.1 = k then (k, v) else e)
  else dir ++ [(k, v)]

/-- Embeds `_escape_yaml_string`: single quotes are doubled, everything
else (backslashes included) is left verbatim. -/
def _escape_yaml_string : Str → Str
  | [] => []
  | c :: rest =>
      if c = qc then qc :: qc :: _escape_yaml_string rest
      else c :: _escape_yaml_string rest

/-- Embeds the fallback branch of `_format_yaml_description` (the PyYAML
branch is an external capability, see the spec's `FrontMatterSerializer`
note): newlines are replaced by spaces with a warning, then the value is
rendered in YAML single-quoted style. -/
def _format_yaml_description (d : Str) : Str :=
  let d2 := if '\n' ∈ d then d.map (fun c => if c = '\n' then ' ' else c) else d
  str "description: " ++ qc :: (_escape_yaml_string d2 ++ [qc])

/-- Embeds `_write_prompt_file`: the content written to the target file,
with a front-matter block exactly when a description is passed. -/
def _write_prompt_file_content (prompt : Str) (desc : Option Str) : Str :=
  match desc with
  | some d =>
      str "---\n" ++ _format_yaml_description d ++ str "\n---\n" ++ ('\n' :: prompt)
  | none => prompt

/-- Embeds `_process_source_file`: the output filename and content for one
source, or `none` when the load failed, the `prompt` key is absent, or the
stem is empty after stripping. -/
def _process_source_file (f : TomlFile) (sp : Option Str) (incl : Bool) :
    Option (Str × Str) :=
  match f.data with
  | none => none
  | some data =>
    match lookupKV (str "prompt") data with
    | none => none
    | some prompt =>
      match _get_output_stem f.stem sp with
      | none => none
      | some stem =>
        if stem = [] then none
        else
          some (stem ++ str ".md",
            _write_prompt_file_content prompt
              (if incl then some ((lookupKV (str "description") data).getD []) else none))

/-- `Path.stem` of a `*.md` entry name: the name without its `.md` suffix. -/
def stemOf (n : Str) : Str := n.take (n.length - 3)

/-- `glob("*.md")` membership of an entry name. -/
def endsMd (n : Str) : Bool := (str ".md").isSuffixOf n

/-- Embeds `_should_remove_md_file`: scan the source stems in order; the
first stem whose expected (post-strip, with fallback) output equals the
item's stem decides keep-iff-created; otherwise, with stripping active, a
stem equal to the item's stem decides removal (legacy name); when no stem
matches the item is removed. -/
def _should_remove_md_file (item_name : Str) (toml_stems : List Str)
    (created : List Str) (sp : Option Str) : Bool :=
  match toml_stems with
  | [] => true
  | s :: rest =>
    if stemOf item_name = pyOr (_get_output_stem s sp) s then
      decide (item_name ∉ created)
    else if truthy sp = true ∧ stemOf item_name = s then true
    else _should_remove_md_file item_name rest created sp

/-- Embeds `_cleanup_stale_md_files`: every `*.md` entry for which
`_should_remove_md_file` holds is removed, in directory order. -/
def _cleanup_stale_md_files (dir : List (Str × Str)) (toml_stems : List Str)
    (created : List Str) (sp : Option Str) : List (Str × Str) × List Op :=
  match dir with
  | [] => ([], [])
  | e :: rest =>
    let r := _cleanup_stale_md_files rest toml_stems created sp
    if endsMd e.1 = true ∧ _should_remove_md_file e.1 toml_stems created sp = true then
      (r.1, Op.removed e.1 :: r.2)
    else (e :: r.1, r.2)

/-- The per-source write loop of `extract_prompts_to_md`: the resulting
directory, the `created_md_files` set (as an ordered list), and the write
trace. -/
def extractWrites (files : List TomlFile) (sp : Option Str) (incl : Bool)
    (dir : List (Str × Str)) : List (Str × Str) × List Str × List Op :=
  match files with
  | [] => (dir, [], [])
  | f :: rest =>
    match _process_source_file f sp incl with
    | none => extractWrites rest sp incl dir
    | some nc =>
      let r := extractWrites rest sp incl (setEntry dir nc.1 nc.2)
      (r.1, nc.1 :: r.2.1, Op.wrote nc.1 nc.2 :: r.2.2)

/-- Embeds `extract_prompts_to_md`: write every extractable source, then
remove stale `.md` entries. -/
def extract_prompts_to_md (files : List TomlFile) (dir : List (Str × Str))
    (sp : Option Str) : List (Str × Str) × List Op :=
  let w := extractWrites files sp false dir
  let c := _cleanup_stale_md_files w.1 (files.map (fun f => f.stem)) w.2.1 sp
  (c.1, w.2.2 ++ c.2)

/-- Embeds `extract_prompts_to_md_with_description`: same, with YAML
front matter on each output. -/
def extract_prompts_to_md_with_description (files : List TomlFile)
    (dir : List (Str × Str)) (sp : Option Str) : List (Str × Str) × List Op :=
  let w := extractWrites files sp true dir
  let c := _cleanup_stale_md_files w.1 (files.map (fun f => f.stem)) w.2.1 sp
  (c.1, w.2.2 ++ c.2)

/-- The item's stem matches neither the expected output stem of source
stem `s` nor (with stripping active) `s` itself — i.e. source `s` does not
decide the fate of this item in `_should_remove_md_file`. -/
def noMatchSrc (item_name s : Str) (sp : Option Str) : Bool :=
  decide (stemOf item_name ≠ pyOr (_get_output_stem s sp) s) &&
  ! (truthy sp && decide (stemOf item_name = s))

/-! ## Symlink reconciliation (`_sync_symlinks_to_dir` and helpers) -/

/-- Canonical resolution of a path: identity of the parent directory, the
final name, and the inode (`os.path.samefile` identity). -/
structure Resolved where
  parent : Nat
  rname : Str
  inode : Nat
deriving DecidableEq

/-- A source file to link: its basename and its canonical resolution
(`source_file.resolve()`). -/
structure SFile where
  name : Str
  res : Resolved
deriving DecidableEq

/-- A directory entry: a symbolic link together with the outcome of
resolving it (`none` embeds a resolution that raises `OSError`), or a
regular file with its inode (a regular path resolves to itself). -/
inductive Entry
  | link : Option Resolved → Entry
  | file : Nat → Entry
deriving DecidableEq

/-- The inode the entry resolves to, if resolution succeeds. -/
def entryInode : Entry → Option Nat
  | Entry.link (some r) => some r.inode
  | Entry.link none => none
  | Entry.file i => some i

/-- Embeds the per-source body of `_sync_symlinks_to_dir`: create the link
when no entry exists; skip when the existing entry resolves to the same
filesystem object as the resolved source (`os.path.samefile`); otherwise
remove the entry and create the correct link. -/
def syncOne (dir : List (Str × Entry)) (f : SFile) : List (Str × Entry) × List Op :=
  match lookupKV f.name dir with
  | none => (setEntry dir f.name (Entry.link (some f.res)), [Op.linked f.name])
  | some e =>
    match entryInode e with
    | some i =>
        if i = f.res.inode then (dir, [])
        else (setEntry dir f.name (Entry.link (some f.res)),
              [Op.unlinked f.name, Op.linked f.name])
    | none => (setEntry dir f.name (Entry.link (some f.res)),
               [Op.unlinked f.name, Op.linked f.name])

/-- The creation pass of `_sync_symlinks_to_dir`, over all sources. -/
def syncCreateAll (files : List SFile) (dir : List (Str × Entry)) :
    List (Str × Entry) × List Op :=
  match files with
  | [] => (dir, [])
  | f :: rest =>
    let r1 := syncOne dir f
    let r2 := syncCreateAll rest r1.1
    (r2.1, r1.2 ++ r2.2)

/-- The removal condition of `_cleanup_stale_symlinks` on one entry: a
link resolving into the canonical source directory under a name that is no
current source basename, or a link that fails to resolve. -/
def staleLink (names : List Str) (sdr : Nat) : Entry → Bool
  | Entry.link (some r) => decide (r.parent = sdr ∧ r.rname ∉ names)
  | Entry.link none => true
  | Entry.file _ => false

/-- Embeds `_cleanup_stale_symlinks`: iterate the directory, remove stale
links (regular files are not links and are skipped). -/
def _cleanup_stale_symlinks (dir : List (Str × Entry)) (names : List Str)
    (sdr : Nat) : List (Str × Entry) × List Op :=
  match dir with
  | [] => ([], [])
  | (n, e) :: rest =>
    let r := _cleanup_stale_symlinks rest names sdr
    match e with
    | Entry.link (some t) =>
        if t.parent = sdr ∧ t.rname ∉ names then (r.1, Op.unlinked n :: r.2)
        else ((n, Entry.link (some t)) :: r.1, r.2)
    | Entry.link none => (r.1, Op.unlinked n :: r.2)
    | Entry.file i => ((n, Entry.file i) :: r.1, r.2)

/-- Embeds `_sync_symlinks_to_dir`: creation pass over the sources, then
the stale-link cleanup pass. -/
def _sync_symlinks_to_dir (files : List SFile) (dir : List (Str × Entry))
    (sdr : Nat) : List (Str × Entry) × List Op :=
  let r1 := syncCreateAll files dir
  let r2 := _cleanup_stale_symlinks r1.1 (files.map (fun f => f.name)) sdr
  (r2.1, r1.2 ++ r2.2)


/-! ## Front matter parsing and the agent transform -/

/-- Split off the first occurrence of token `tok`: `some (b, a)` with the
input equal to `b ++ tok ++ a` and no occurrence starting inside `b`. -/
def splitFirst (tok : Str) : Str → Option (Str × Str)
  | [] => if tok.isPrefixOf [] then some ([], []) else none
  | c :: rest =>
    if tok.isPrefixOf (c :: rest) then some ([], (c :: rest).drop tok.length)
    else (splitFirst tok rest).map (fun p => (c :: p.1, p.2))

/-- Scan the inside of a YAML single-quoted scalar: a doubled quote is an
escaped quote, the closing quote must end the value, a missing closing
quote is malformed. -/
def unqAux : Str → Option Str
  | [] => none
  | [c] => if c = qc then some [] else none
  | c :: c2 :: rest =>
      if c = qc then
        if c2 = qc then (unqAux rest).map (fun t => qc :: t) else none
      else (unqAux (c2 :: rest)).map (fun t => c :: t)

/-- A scalar value of a front-matter line: single-quoted values are
unescaped, everything else is taken literally. -/
def parseValue (v : Str) : Option Str :=
  match v with
  | [] => some []
  | c :: rest => if c = qc then unqAux rest else some (c :: rest)

/-- One front-matter line `key: value`; a nonempty line without the
separator is structurally malformed. -/
def parseLine (line : Str) : Option (Str × Str) :=
  match splitFirst (str ": ") line with
  | none => none
  | some kv => (parseValue kv.2).map (fun w => (kv.1, w))

/-- Split text into lines at every newline character. -/
def splitLines : Str → List Str
  | [] => [[]]
  | c :: rest =>
    let r := splitLines rest
    if c = '\n' then [] :: r
    else
      match r with
      | [] => [[c]]
      | l :: ls => (c :: l) :: ls

/-- Parse the lines of a front-matter block into an ordered mapping;
blank lines are skipped; any malformed line fails the whole block. -/
def parseBlockLines : List Str → Option (List (Str × Str))
  | [] => some []
  | l :: rest =>
    if l = [] then parseBlockLines rest
    else
      match parseLine l, parseBlockLines rest with
      | some kv, some m => some (kv :: m)
      | _, _ => none

/-- Modelled from the spec: `FrontMatterCodec.parse`
(`_parse_yaml_frontmatter`, present in this repository's tests but not
under `src/`).  If the text does not begin with the opening delimiter,
or no closing delimiter line follows, or the enclosed block fails
structural parsing, return `(none, text)` with the original text
unchanged; on success return the parsed mapping and the text following
the closing delimiter. -/
def _parse_yaml_frontmatter (text : Str) : Option (List (Str × Str)) × Str :=
  if (str "---\n").isPrefixOf text then
    match splitFirst (str "\n---\n") (text.drop 3) with
    | none => (none, text)
    | some ba =>
      match parseBlockLines (splitLines ba.1) with
      | none => (none, text)
      | some m => (some m, ba.2)
  else (none, text)

/-- Render an ordered mapping as front-matter lines `key: value`. -/
def renderBlock : List (Str × Str) → Str
  | [] => []
  | kv :: rest => kv.1 ++ str ": " ++ kv.2 ++ '\n' :: renderBlock rest

/-- Modelled from the spec: the output field set of the agent transform
(`AgentTransformReconciler`, `_sync_opencode_agents_folder` in this
repository's tests but not under `src/`): only a carried-over
`description` field plus the fixed injected marker field
`mode: subagent`; with no parseable block the marker field alone. -/
def agentOutFields (fm : Option (List (Str × Str))) : List (Str × Str) :=
  match fm with
  | none => [(str "mode", str "subagent")]
  | some m =>
    (match lookupKV (str "description") m with
     | some d => [(str "description", d)]
     | none => []) ++ [(str "mode", str "subagent")]

/-- Modelled from the spec: the agent transform on one file — parse the
front matter, serialize the allow-listed field set, concatenate with the
remainder body (the whole original text when no block parses). -/
def agentTransformFile (text : Str) : Str :=
  str "---\n" ++ renderBlock (agentOutFields (_parse_yaml_frontmatter text).1) ++
    str "---\n" ++ (_parse_yaml_frontmatter text).2

/-! ## The full reconciliation pass -/

/-- The filesystem state a full pass touches: the symlink target
directory and the extraction target directory. -/
structure RState where
  sym : List (Str × Entry)
  md : List (Str × Str)
deriving DecidableEq

/-- One full reconciliation pass over unchanged source input: the symlink
sync followed by the prompt extraction, with the combined mutation
trace. -/
def fullPass (sf : List SFile) (sdr : Nat) (tf : List TomlFile) (sp : Option Str)
    (st : RState) : RState × List Op :=
  let r1 := _sync_symlinks_to_dir sf st.sym sdr
  let r2 := extract_prompts_to_md tf st.md sp
  (⟨r1.1, r2.1⟩, r1.2 ++ r2.2)



/-- The successfully processed (filename, content) outputs of a run, in
source order (`created_md_files` with contents). -/
def processedPairs (files : List TomlFile) (sp : Option Str) (incl : Bool) :
    List (Str × Str) :=
  files.filterMap (fun f => _process_source_file f sp incl)

/-- No filesystem aliasing between the directory and the sources: any
entry resolving to a source's inode is exactly the correct link to that
source (no hard links or alias paths to sources). -/
def InvAlias (files : List SFile) (dir : List (Str × Entry)) : Prop :=
  ∀ p ∈ dir, ∀ f ∈ files, entryInode p.2 = some f.res.inode →
    p.2 = Entry.link (some f.res)

/-! ## Helper lemmas and claim theorems -/

/-- Unfolding equation of `lookupKV` on the empty list. -/
theorem lookupKV_nil {α : Type} (k : Str) :
    lookupKV k ([] : List (Str × α)) = none := rfl

/-- Unfolding equation of `lookupKV` on a cons cell. -/
theorem lookupKV_cons {α : Type} (k : Str) (e : Str × α) (l : List (Str × α)) :
    lookupKV k (e :: l) = if e.1 = k then some e.2 else lookupKV k l := rfl

/-- Inside the overwrite map, looking up the overwritten key finds the
new value, provided the key occurs. -/
theorem lookup_map_set_self {α : Type} (dir : List (Str × α)) (k : Str) (v : α)
    (h : dir.any (fun e => e.1 = k) = true) :
    lookupKV k (dir.map (fun e => if e.1 = k then (k, v) else e)) = some v := by
  induction dir with
  | nil => simp at h
  | cons e rest ih =>
      by_cases he : e.1 = k
      · rw [List.map_cons, if_pos he, lookupKV_cons]
        exact if_pos rfl
      · have hr : rest.any (fun e => e.1 = k) = true := by
          cases hb : decide (e.1 = k) with
          | true => exact absurd (of_decide_eq_true hb) he
          | false =>
              rw [List.any_cons, hb, Bool.false_or] at h
              exact h
        rw [List.map_cons, if_neg he, lookupKV_cons, if_neg he]
        exact ih hr
/-- Looking up a key absent from a list continues in the appended tail. -/
theorem lookup_append_absent {α : Type} (dir tail : List (Str × α)) (k : Str)
    (h : ∀ e ∈ dir, ¬ e.1 = k) : lookupKV k (dir ++ tail) = lookupKV k tail := by
  induction dir with
  | nil => rfl
  | cons e rest ih =>
      simp only [List.cons_append, lookupKV, if_neg (h e (by simp))]
      exact ih (fun x hx => h x (by simp [hx]))
/-- `lookupKV` after `setEntry` at the same key finds the new value. -/
theorem lookup_setEntry_self {α : Type} (dir : List (Str × α)) (k : Str) (v : α) :
    lookupKV k (setEntry dir k v) = some v := by
  unfold setEntry
  by_cases ha : dir.any (fun e => e.1 = k) = true
  · rw [if_pos ha]
    exact lookup_map_set_self dir k v ha
  · rw [if_neg ha]
    have h : ∀ e ∈ dir, ¬ e.1 = k := by
      intro e he hk
      exact ha (List.any_eq_true.mpr ⟨e, he, decide_eq_true hk⟩)
    rw [lookup_append_absent dir [(k, v)] k h]
    simp [lookupKV]
/-- The overwrite map leaves lookups at other keys unchanged. -/
theorem lookup_map_set_ne {α : Type} (dir : List (Str × α)) (k k' : Str) (v : α)
    (h : k' ≠ k) :
    lookupKV k' (dir.map (fun e => if e.1 = k then (k, v) else e)) =
      lookupKV k' dir := by
  induction dir with
  | nil => rfl
  | cons e rest ih =>
      by_cases he : e.1 = k
      · have h1 : ¬ ((k, v).1 = k') := fun hk => h hk.symm
        have h2 : ¬ e.1 = k' := by
          rw [he]
          exact fun hk => h hk.symm
        rw [List.map_cons, if_pos he, lookupKV_cons, lookupKV_cons,
          if_neg h1, if_neg h2]
        exact ih
      · by_cases he' : e.1 = k'
        · rw [List.map_cons, if_neg he, lookupKV_cons, lookupKV_cons,
            if_pos he', if_pos he']
        · rw [List.map_cons, if_neg he, lookupKV_cons, lookupKV_cons,
            if_neg he', if_neg he']
          exact ih
/-- Appending a binding for a different key does not change a lookup. -/
theorem lookup_append_single_ne {α : Type} (dir : List (Str × α)) (k k' : Str)
    (v : α) (h : k' ≠ k) :
    lookupKV k' (dir ++ [(k, v)]) = lookupKV k' dir := by
  induction dir with
  | nil =>
      rw [List.nil_append, lookupKV_cons]
      exact if_neg (fun hk => h hk.symm)
  | cons e rest ih =>
      rw [List.cons_append, lookupKV_cons, lookupKV_cons]
      by_cases he' : e.1 = k'
      · rw [if_pos he', if_pos he']
      · rw [if_neg he', if_neg he', ih]

/-- `lookupKV` at a different key is unaffected by `setEntry`. -/
theorem lookup_setEntry_ne {α : Type} (dir : List (Str × α)) (k k' : Str) (v : α)
    (h : k' ≠ k) : lookupKV k' (setEntry dir k v) = lookupKV k' dir := by
  unfold setEntry
  by_cases ha : dir.any (fun e => e.1 = k) = true
  · rw [if_pos ha]
    exact lookup_map_set_ne dir k k' v h
  · rw [if_neg ha]
    exact lookup_append_single_ne dir k k' v h
/-- A successful `lookupKV` witnesses membership. -/
theorem mem_of_lookup {α : Type} (dir : List (Str × α)) (k : Str) (v : α)
    (h : lookupKV k dir = some v) : (k, v) ∈ dir := by
  induction dir with
  | nil => simp [lookupKV] at h
  | cons e rest ih =>
      by_cases he : e.1 = k
      · simp only [lookupKV, if_pos he] at h
        have hv : e.2 = v := Option.some.inj h
        have hkv : e = (k, v) := by
          obtain ⟨e1, e2⟩ := e
          simp only at he hv
          rw [he, hv]
        rw [← hkv]
        exact List.mem_cons_self e rest
      · simp only [lookupKV, if_neg he] at h
        exact List.mem_cons_of_mem e (ih h)
/-- With nodup keys, membership determines `lookupKV`. -/
theorem lookup_of_mem_nodup {α : Type} (dir : List (Str × α)) (k : Str) (v : α)
    (hnd : (dir.map Prod.fst).Nodup) (hm : (k, v) ∈ dir) :
    lookupKV k dir = some v := by
  induction dir with
  | nil => simp at hm
  | cons e rest ih =>
      rw [List.map_cons, List.nodup_cons] at hnd
      rcases List.mem_cons.mp hm with he | hrest
      · rw [← he]
        simp [lookupKV]
      · have hk : k ∈ rest.map Prod.fst := List.mem_map.mpr ⟨(k, v), hrest, rfl⟩
        have he1 : ¬ e.1 = k := fun hk1 => hnd.1 (hk1 ▸ hk)
        simp only [lookupKV, if_neg he1]
        exact ih hnd.2 hrest
/-- A map that fixes every member is the identity. -/
theorem map_id_of_fix {α : Type} (l : List α) (f : α → α)
    (h : ∀ a ∈ l, f a = a) : l.map f = l := by
  induction l with
  | nil => rfl
  | cons a rest ih =>
      simp only [List.map_cons, h a (by simp)]
      rw [ih (fun x hx => h x (by simp [hx]))]
/-- With nodup keys, writing an already-present binding is a no-op. -/
theorem setEntry_id {α : Type} (dir : List (Str × α)) (k : Str) (v : α)
    (hnd : (dir.map Prod.fst).Nodup) (hm : (k, v) ∈ dir) :
    setEntry dir k v = dir := by
  have ha : dir.any (fun e => e.1 = k) = true :=
    List.any_eq_true.mpr ⟨(k, v), hm, by simp⟩
  unfold setEntry
  rw [if_pos ha]
  refine map_id_of_fix dir _ (fun e he => ?_)
  by_cases hk : e.1 = k
  · have h2 : lookupKV k dir = some e.2 := by
      refine lookup_of_mem_nodup dir k e.2 hnd ?_
      have hkv : (k, e.2) = e := by
        obtain ⟨e1, e2⟩ := e
        simp only at hk
        rw [hk]
      rw [hkv]
      exact he
    have hv : e.2 = v :=
      Option.some.inj ((lookup_of_mem_nodup dir k v hnd hm).symm.trans h2).symm
    have hkv : e = (k, v) := by
      obtain ⟨e1, e2⟩ := e
      simp only at hk hv
      rw [hk, hv]
    rw [if_pos hk, hkv]
  · rw [if_neg hk]
/-- The keys after the overwrite map are unchanged. -/
theorem keys_map_set {α : Type} (dir : List (Str × α)) (k : Str) (v : α) :
    (dir.map (fun e => if e.1 = k then (k, v) else e)).map Prod.fst =
      dir.map Prod.fst := by
  induction dir with
  | nil => rfl
  | cons e rest ih =>
      by_cases he : e.1 = k
      · simp only [List.map_cons, if_pos he, ih]
        rw [he]
      · simp only [List.map_cons, if_neg he, ih]
/-- `setEntry` preserves nodup keys. -/
theorem setEntry_keys_nodup {α : Type} (dir : List (Str × α)) (k : Str) (v : α)
    (hnd : (dir.map Prod.fst).Nodup) :
    ((setEntry dir k v).map Prod.fst).Nodup := by
  unfold setEntry
  by_cases ha : dir.any (fun e => e.1 = k) = true
  · rw [if_pos ha, keys_map_set]
    exact hnd
  · rw [if_neg ha]
    have hk : k ∉ dir.map Prod.fst := by
      intro hmem
      rcases List.mem_map.mp hmem with ⟨e, he, hek⟩
      exact ha (List.any_eq_true.mpr ⟨e, he, decide_eq_true hek⟩)
    rw [List.map_append]
    rw [List.nodup_append]
    refine ⟨hnd, by simp, ?_⟩
    intro a hha hhb
    simp only [List.map_cons, List.map_nil, List.mem_singleton] at hhb
    exact hk (hhb ▸ hha)
/-- A filter keeps a list whose members all satisfy the predicate. -/
theorem filter_stable {α : Type} (l : List α) (p : α → Bool)
    (h : ∀ a ∈ l, p a = true) : l.filter p = l := by
  induction l with
  | nil => rfl
  | cons a rest ih =>
      simp only [List.filter, h a (by simp)]
      rw [ih (fun x hx => h x (by simp [hx]))]

/-- Claim C1 (amended): `_get_output_stem` returns the stem unchanged when
the prefix is `None` or the empty string; strips the prefix when the stem
starts with it and the remainder is nonempty; and returns `None` (not the
original stem) when stripping would leave an empty remainder — the
fallback to the original stem happens at the call sites (stale detection
uses `_get_output_stem(...) or source_stem`; extraction skips the file).
In particular the resolution of `"claude_foo"` under `"claude_"` is
`"foo"`, of `"claude_"` under `"claude_"` is `None` with the stale-check
fallback giving `"claude_"`, and of `"foo"` under `""` is `"foo"`. -/
theorem C1_resolve_amended (stem p : Str) :
    _get_output_stem stem none = some stem ∧
    _get_output_stem stem (some []) = some stem ∧
    (p ≠ [] → p.isPrefixOf stem →
      _get_output_stem stem (some p) =
        (if stem.drop p.length = [] then none else some (stem.drop p.length))) ∧
    (¬ p.isPrefixOf stem → _get_output_stem stem (some p) = some stem) ∧
    _get_output_stem (str "claude_foo") (some (str "claude_")) = some (str "foo") ∧
    _get_output_stem (str "foo") (some []) = some (str "foo") ∧
    pyOr (_get_output_stem (str "claude_") (some (str "claude_"))) (str "claude_")
      = str "claude_" := by
  refine ⟨rfl, ?_, ?_, ?_, by decide, by decide, by decide⟩
  · simp [_get_output_stem]
  · intro hne hpre
    simp [_get_output_stem, hne, hpre]
  · intro hpre
    simp [_get_output_stem, hpre]

/-- Claim C1 fails as stated: resolving the stem `"claude_"` under the
configured prefix `"claude_"` yields `None`, not the original stem
`"claude_"`. -/
theorem C1_resolve_counterexample :
    _get_output_stem (str "claude_") (some (str "claude_")) = none ∧
    _get_output_stem (str "claude_") (some (str "claude_")) ≠ some (str "claude_") := by
  decide

/-- Witness for the amended claim C1 at concrete inputs. -/
theorem C1_resolve_witness :
    ((str "claude_" : Str) ≠ [] ∧ (str "claude_").isPrefixOf (str "claude_foo") = true ∧
      ¬ (str "zz").isPrefixOf (str "foo") = true) ∧
    _get_output_stem (str "claude_foo") (some (str "claude_")) =
      (if (str "claude_foo").drop (str "claude_").length = [] then none
       else some ((str "claude_foo").drop (str "claude_").length)) ∧
    _get_output_stem (str "foo") (some (str "zz")) = some (str "foo") := by
  refine ⟨by decide, ?_, ?_⟩
  · exact (C1_resolve_amended (str "claude_foo") (str "claude_")).2.2.1
      (by decide) (by decide)
  · exact (C1_resolve_amended (str "foo") (str "zz")).2.2.2.1 (by decide)

/-- Claim C10: with an empty source list, `_should_remove_md_file` holds
for every entry, so both extraction variants delete every `*.md` entry of
the target directory and keep exactly the non-`.md` entries. -/
theorem C10_empty_sources_removes_all (dir : List (Str × Str)) (sp : Option Str)
    (n : Str) (created : List Str) :
    _should_remove_md_file n [] created sp = true ∧
    (extract_prompts_to_md [] dir sp).1 = dir.filter (fun e => ¬ endsMd e.1 = true) ∧
    (extract_prompts_to_md_with_description [] dir sp).1 =
      dir.filter (fun e => ¬ endsMd e.1 = true) ∧
    (extract_prompts_to_md [] dir sp).1.filter (fun e => endsMd e.1) = [] := by
  have hclean : ∀ (d : List (Str × Str)),
      (_cleanup_stale_md_files d [] [] sp).1 = d.filter (fun e => ¬ endsMd e.1 = true) := by
    intro d
    induction d with
    | nil => rfl
    | cons e rest ih =>
        by_cases h : endsMd e.1 = true
        · simp [_cleanup_stale_md_files, _should_remove_md_file, h, List.filter, ih]
        · simp [_cleanup_stale_md_files, _should_remove_md_file, h, List.filter, ih]
  refine ⟨rfl, ?_, ?_, ?_⟩
  · simpa [extract_prompts_to_md, extractWrites] using hclean dir
  · simpa [extract_prompts_to_md_with_description, extractWrites] using hclean dir
  · have hgen : ∀ (l : List (Str × Str)),
        (l.filter (fun e => ¬ endsMd e.1 = true)).filter (fun e => endsMd e.1) = [] := by
      intro l
      induction l with
      | nil => rfl
      | cons e rest ih =>
          by_cases h : endsMd e.1 = true
          · simp [List.filter, h, ih]
          · simp [List.filter, h, ih]
    have h2 : (extract_prompts_to_md [] dir sp).1 = dir.filter (fun e => ¬ endsMd e.1 = true) := by
      simpa [extract_prompts_to_md, extractWrites] using hclean dir
    rw [h2]
    exact hgen dir

/-- Sources that match the item neither way are skipped by the stale scan. -/
theorem should_remove_skip (item_name : Str) (created : List Str) (sp : Option Str)
    (pre rest : List Str) (h : ∀ x ∈ pre, noMatchSrc item_name x sp = true) :
    _should_remove_md_file item_name (pre ++ rest) created sp =
      _should_remove_md_file item_name rest created sp := by
  induction pre with
  | nil => rfl
  | cons s pre ih =>
      have hs := h s (by simp)
      simp only [noMatchSrc, Bool.and_eq_true, decide_eq_true_eq,
        Bool.not_eq_true'] at hs
      have h1 : stemOf item_name ≠ pyOr (_get_output_stem s sp) s := hs.1
      have h2 : ¬ (truthy sp = true ∧ stemOf item_name = s) := by
        intro hc
        have hb := hs.2
        rw [hc.1, decide_eq_true hc.2] at hb
        exact Bool.noConfusion hb
      simp only [List.cons_append, _should_remove_md_file, if_neg h1, if_neg h2]
      exact ih (fun x hx => h x (by simp [hx]))

/-- Claim C3 (amended): the stale decision scans sources in list order and
the first source that matches the item decides it.  With no matching
source the item is removed.  If the first matching source matches by its
expected (post-strip) stem the item is kept exactly when it is in the
created set; if it matches by its original stem while its expected stem
differs and prefix stripping is active, the item is removed, even when a
later source's expected stem equals the item's stem and the item was just
created. -/
theorem C3_stale_first_match_amended (item_name : Str) (created : List Str)
    (sp : Option Str) :
    (∀ (stems : List Str), (∀ x ∈ stems, noMatchSrc item_name x sp = true) →
       _should_remove_md_file item_name stems created sp = true) ∧
    (∀ (pre : List Str) (s : Str) (post : List Str),
       (∀ x ∈ pre, noMatchSrc item_name x sp = true) →
       (stemOf item_name = pyOr (_get_output_stem s sp) s →
          _should_remove_md_file item_name (pre ++ s :: post) created sp =
            decide (item_name ∉ created)) ∧
       (stemOf item_name ≠ pyOr (_get_output_stem s sp) s → truthy sp = true →
          stemOf item_name = s →
          _should_remove_md_file item_name (pre ++ s :: post) created sp = true)) := by
  constructor
  · intro stems h
    have := should_remove_skip item_name created sp stems [] h
    rw [List.append_nil] at this
    rw [this]
    rfl
  · intro pre s post h
    rw [should_remove_skip item_name created sp pre (s :: post) h]
    constructor
    · intro he
      simp only [_should_remove_md_file]
      rw [if_pos he]
    · intro hne ht hs
      simp only [_should_remove_md_file]
      rw [if_neg hne, if_pos ⟨ht, hs⟩]

/-- Claim C3 fails as stated: the entry `claude_x.md` has a stem equal to
the expected stem of source `claude_claude_x` and is in the created set,
so the claim says it is kept; but the earlier source `claude_x` matches it
as a legacy name first, and the code removes it. -/
theorem C3_stale_counterexample :
    _should_remove_md_file (str "claude_x.md")
        [str "claude_x", str "claude_claude_x"] [str "claude_x.md"]
        (some (str "claude_")) = true ∧
    stemOf (str "claude_x.md") =
      pyOr (_get_output_stem (str "claude_claude_x") (some (str "claude_")))
        (str "claude_claude_x") ∧
    (str "claude_x.md") ∈ [str "claude_x.md"] := by
  decide

/-- Witness for the amended claim C3 at concrete inputs. -/
theorem C3_stale_witness :
    _should_remove_md_file (str "b.md") [str "a"] [] none = true ∧
    _should_remove_md_file (str "a.md") [str "a"] [str "a.md"] none =
      decide ((str "a.md") ∉ [str "a.md"]) ∧
    _should_remove_md_file (str "claude_x.md") [str "claude_x"] []
      (some (str "claude_")) = true := by
  refine ⟨?_, ?_, ?_⟩
  · exact (C3_stale_first_match_amended (str "b.md") [] none).1 [str "a"] (by decide)
  · exact ((C3_stale_first_match_amended (str "a.md") [str "a.md"] none).2
      [] (str "a") [] (by decide)).1 (by decide)
  · exact ((C3_stale_first_match_amended (str "claude_x.md") [] (some (str "claude_"))).2
      [] (str "claude_x") [] (by decide)).2 (by decide) (by decide) (by decide)

/-- Claim C9 (amended): a source whose parsed table lacks the `prompt` key
is skipped — `_process_source_file` returns `None` and writes nothing —
and the write loop over the remaining sources is unaffected: removing the
skipped source from the list leaves the directory, the created set and the
write trace unchanged.  (The skipped source still participates in stale
detection, where its pre-strip name can remove another source's
just-created output when stems collide after stripping.) -/
theorem C9_missing_prompt_amended (f : TomlFile) (d : List (Str × Str))
    (sp : Option Str) (incl : Bool) (hf : f.data = some d)
    (hp : lookupKV (str "prompt") d = none) :
    _process_source_file f sp incl = none ∧
    ∀ (pre post : List TomlFile) (dir : List (Str × Str)),
      extractWrites (pre ++ f :: post) sp incl dir =
        extractWrites (pre ++ post) sp incl dir := by
  have hnone : _process_source_file f sp incl = none := by
    simp [_process_source_file, hf, hp]
  refine ⟨hnone, ?_⟩
  intro pre post dir
  induction pre generalizing dir with
  | nil => simp [extractWrites, hnone]
  | cons g pre ih =>
      simp only [List.cons_append, extractWrites]
      cases _process_source_file g sp incl with
      | none =>
          simp only [List.append_eq]
          exact ih dir
      | some nc =>
          simp only [List.append_eq]
          rw [ih (setEntry dir nc.1 nc.2)]

/-- Claim C9 fails in its isolation clause: the no-prompt source
`claude_x.toml` makes the cleanup remove `claude_x.md`, the output just
created for the valid source `claude_claude_x.toml`; without the bad
source that output survives. -/
theorem C9_missing_prompt_counterexample :
    _process_source_file ⟨str "claude_x", some []⟩ (some (str "claude_")) false = none ∧
    (extract_prompts_to_md
        [⟨str "claude_x", some []⟩,
         ⟨str "claude_claude_x", some [(str "prompt", str "Hi")]⟩]
        [] (some (str "claude_"))).1 = [] ∧
    (extract_prompts_to_md
        [⟨str "claude_claude_x", some [(str "prompt", str "Hi")]⟩]
        [] (some (str "claude_"))).1 = [(str "claude_x.md", str "Hi")] := by
  decide

/-- Witness for the amended claim C9 at concrete inputs. -/
theorem C9_missing_prompt_witness :
    (⟨str "a", some ([] : List (Str × Str))⟩ : TomlFile).data = some [] ∧
    lookupKV (str "prompt") ([] : List (Str × Str)) = none ∧
    _process_source_file ⟨str "a", some []⟩ none false = none ∧
    extractWrites ([⟨str "b", some [(str "prompt", str "P")]⟩] ++
        ⟨str "a", some []⟩ :: []) none false [] =
      extractWrites ([⟨str "b", some [(str "prompt", str "P")]⟩] ++ []) none false [] := by
  refine ⟨rfl, rfl, ?_, ?_⟩
  · exact (C9_missing_prompt_amended ⟨str "a", some []⟩ [] none false rfl rfl).1
  · exact (C9_missing_prompt_amended ⟨str "a", some []⟩ [] none false rfl rfl).2
      [⟨str "b", some [(str "prompt", str "P")]⟩] [] []

/-- Claim C2 (amended): with no entry at the link path a link to the
canonically resolved source is created; an existing entry resolving to the
same filesystem object as the resolved source (device+inode identity) is
left untouched — whether it is a link through any alias or a regular
file that is the same object (a hard link); an entry resolving to a
different object, or failing to resolve (broken link), is removed and the
correct link is created in its place. -/
theorem C2_symlink_cases_amended (dir : List (Str × Entry)) (f : SFile) :
    (lookupKV f.name dir = none →
       syncOne dir f = (setEntry dir f.name (Entry.link (some f.res)),
         [Op.linked f.name])) ∧
    (∀ e, lookupKV f.name dir = some e → entryInode e = some f.res.inode →
       syncOne dir f = (dir, [])) ∧
    (∀ e, lookupKV f.name dir = some e → entryInode e ≠ some f.res.inode →
       syncOne dir f = (setEntry dir f.name (Entry.link (some f.res)),
         [Op.unlinked f.name, Op.linked f.name])) := by
  refine ⟨?_, ?_, ?_⟩
  · intro h
    simp [syncOne, h]
  · intro e h hi
    simp [syncOne, h, hi]
  · intro e h hi
    cases he : entryInode e with
    | none => simp [syncOne, h, he]
    | some i =>
        have hne : ¬ i = f.res.inode := by
          intro hii
          rw [hii] at he
          exact hi he
        simp [syncOne, h, he, hne]

/-- Claim C2 fails as stated for regular files: a regular file at the link
path whose inode equals the resolved source's inode (a hard link to the
source) is left untouched by the code (`os.path.samefile` is true), while
the claim requires every regular file to be removed and replaced by a
link. -/
theorem C2_symlink_counterexample :
    syncOne [(str "a.toml", Entry.file 5)] ⟨str "a.toml", ⟨1, str "a.toml", 5⟩⟩ =
      ([(str "a.toml", Entry.file 5)], []) ∧
    ([(str "a.toml", Entry.file 5)] : List (Str × Entry)) ≠
      setEntry [(str "a.toml", Entry.file 5)] (str "a.toml")
        (Entry.link (some ⟨1, str "a.toml", 5⟩)) := by
  decide

/-- Witness for the amended claim C2 at concrete inputs: absent entry,
matching link, and a link resolving elsewhere. -/
theorem C2_symlink_witness :
    syncOne [] ⟨str "a.toml", ⟨1, str "a.toml", 5⟩⟩ =
      (setEntry [] (str "a.toml") (Entry.link (some ⟨1, str "a.toml", 5⟩)),
       [Op.linked (str "a.toml")]) ∧
    syncOne [(str "a.toml", Entry.link (some ⟨2, str "alias.toml", 5⟩))]
        ⟨str "a.toml", ⟨1, str "a.toml", 5⟩⟩ =
      ([(str "a.toml", Entry.link (some ⟨2, str "alias.toml", 5⟩))], []) ∧
    syncOne [(str "a.toml", Entry.link (some ⟨1, str "b.toml", 9⟩))]
        ⟨str "a.toml", ⟨1, str "a.toml", 5⟩⟩ =
      (setEntry [(str "a.toml", Entry.link (some ⟨1, str "b.toml", 9⟩))]
         (str "a.toml") (Entry.link (some ⟨1, str "a.toml", 5⟩)),
       [Op.unlinked (str "a.toml"), Op.linked (str "a.toml")]) := by
  refine ⟨?_, ?_, ?_⟩
  · exact (C2_symlink_cases_amended [] ⟨str "a.toml", ⟨1, str "a.toml", 5⟩⟩).1 rfl
  · exact (C2_symlink_cases_amended _ _).2.1
      (Entry.link (some ⟨2, str "alias.toml", 5⟩)) rfl rfl
  · exact (C2_symlink_cases_amended _ _).2.2
      (Entry.link (some ⟨1, str "b.toml", 9⟩)) rfl (by decide)

/-- Claim C4: the cleanup pass keeps exactly the entries that are not
stale links; a link resolving into the canonical source directory under a
name not among current source basenames is removed; a link resolving
outside that directory is never removed; a link that fails to resolve is
removed unconditionally. -/
theorem C4_cleanup_symlinks (dir : List (Str × Entry)) (names : List Str)
    (sdr : Nat) :
    (_cleanup_stale_symlinks dir names sdr).1 =
      dir.filter (fun e => staleLink names sdr e.2 = false) ∧
    (∀ n r, (n, Entry.link (some r)) ∈ dir → r.parent = sdr → r.rname ∉ names →
       (n, Entry.link (some r)) ∉ (_cleanup_stale_symlinks dir names sdr).1) ∧
    (∀ n r, (n, Entry.link (some r)) ∈ dir → r.parent ≠ sdr →
       (n, Entry.link (some r)) ∈ (_cleanup_stale_symlinks dir names sdr).1) ∧
    (∀ n, (n, Entry.link none) ∈ dir →
       (n, Entry.link none) ∉ (_cleanup_stale_symlinks dir names sdr).1) := by
  have hfil : (_cleanup_stale_symlinks dir names sdr).1 =
      dir.filter (fun e => staleLink names sdr e.2 = false) := by
    induction dir with
    | nil => rfl
    | cons p rest ih =>
        obtain ⟨n, e⟩ := p
        cases e with
        | link t =>
            cases t with
            | none => simpa [_cleanup_stale_symlinks, staleLink, List.filter] using ih
            | some r =>
                by_cases h : r.parent = sdr ∧ r.rname ∉ names
                · simp [_cleanup_stale_symlinks, staleLink, List.filter, h, ih]
                · simp [_cleanup_stale_symlinks, staleLink, List.filter, h, ih]
        | file i => simpa [_cleanup_stale_symlinks, staleLink, List.filter] using ih
  refine ⟨hfil, ?_, ?_, ?_⟩
  · intro n r _ hp hn hmem
    rw [hfil] at hmem
    have := (List.mem_filter.mp hmem).2
    simp [staleLink, hp, hn] at this
  · intro n r hmem hp
    rw [hfil]
    refine List.mem_filter.mpr ⟨hmem, ?_⟩
    simp [staleLink, hp]
  · intro n hmem hcon
    rw [hfil] at hcon
    have := (List.mem_filter.mp hcon).2
    simp [staleLink] at this

/-- Witness for claim C4 at concrete inputs: a stale in-source-dir link is
removed, an outside link is kept, a broken link is removed. -/
theorem C4_cleanup_symlinks_witness :
    ((str "old.toml", Entry.link (some ⟨1, str "old.toml", 3⟩)) ∉
       (_cleanup_stale_symlinks
         [(str "old.toml", Entry.link (some ⟨1, str "old.toml", 3⟩))]
         [str "a.toml"] 1).1) ∧
    ((str "mine", Entry.link (some ⟨7, str "mine", 4⟩)) ∈
       (_cleanup_stale_symlinks
         [(str "mine", Entry.link (some ⟨7, str "mine", 4⟩))] [str "a.toml"] 1).1) ∧
    ((str "gone", Entry.link none) ∉
       (_cleanup_stale_symlinks [(str "gone", Entry.link none)] [str "a.toml"] 1).1) := by
  refine ⟨?_, ?_, ?_⟩
  · exact (C4_cleanup_symlinks _ _ _).2.1 (str "old.toml") ⟨1, str "old.toml", 3⟩
      (by decide) rfl (by decide)
  · exact (C4_cleanup_symlinks _ _ _).2.2.1 (str "mine") ⟨7, str "mine", 4⟩
      (by decide) (by decide)
  · exact (C4_cleanup_symlinks _ _ _).2.2.2 (str "gone") (by decide)

/-- Membership in `setEntry`: the new binding or an old entry. -/
theorem mem_setEntry {α : Type} (dir : List (Str × α)) (k : Str) (v : α)
    (p : Str × α) (h : p ∈ setEntry dir k v) : p = (k, v) ∨ p ∈ dir := by
  unfold setEntry at h
  by_cases ha : dir.any (fun e => e.1 = k) = true
  · rw [if_pos ha] at h
    rcases List.mem_map.mp h with ⟨e, he, hfe⟩
    by_cases hk : e.1 = k
    · rw [if_pos hk] at hfe
      exact Or.inl hfe.symm
    · rw [if_neg hk] at hfe
      exact Or.inr (hfe ▸ he)
  · rw [if_neg ha] at h
    rcases List.mem_append.mp h with hd | hs
    · exact Or.inr hd
    · simp only [List.mem_singleton] at hs
      exact Or.inl hs
/-- A nodup image list makes the mapping injective on members. -/
theorem inj_of_nodup_map {α β : Type} (l : List α) (g : α → β)
    (h : (l.map g).Nodup) :
    ∀ x ∈ l, ∀ y ∈ l, g x = g y → x = y := by
  induction l with
  | nil => intro x hx; simp at hx
  | cons a rest ih =>
      rw [List.map_cons, List.nodup_cons] at h
      intro x hx y hy hg
      rcases List.mem_cons.mp hx with hx | hx <;>
        rcases List.mem_cons.mp hy with hy | hy
      · rw [hx, hy]
      · exact absurd (List.mem_map.mpr ⟨y, hy, (hx ▸ hg).symm⟩) h.1
      · exact absurd (List.mem_map.mpr ⟨x, hx, hy ▸ hg⟩) h.1
      · exact ih h.2 x hx y hy hg
/-- Filtering preserves nodup keys. -/
theorem filter_keys_nodup {α : Type} (l : List (Str × α)) (p : Str × α → Bool)
    (h : (l.map Prod.fst).Nodup) : ((l.filter p).map Prod.fst).Nodup := by
  have hs : (l.filter p).Sublist l := List.filter_sublist l
  exact (hs.map Prod.fst).nodup h
/-- `_cleanup_stale_md_files` keeps exactly the entries the removal
condition rejects and removes the rest, in order. -/
theorem cleanup_md_pair (dir : List (Str × Str)) (stems created : List Str)
    (sp : Option Str) :
    _cleanup_stale_md_files dir stems created sp =
      (dir.filter (fun e =>
         ¬ (endsMd e.1 = true ∧
            _should_remove_md_file e.1 stems created sp = true)),
       (dir.filter (fun e =>
          endsMd e.1 && _should_remove_md_file e.1 stems created sp)).map
         (fun e => Op.removed e.1)) := by
  induction dir with
  | nil => rfl
  | cons e rest ih =>
      simp only [_cleanup_stale_md_files, ih]
      by_cases h : endsMd e.1 = true ∧
          _should_remove_md_file e.1 stems created sp = true
      · rw [if_pos h]
        simp [List.filter_cons, h.1, h.2]
      · rw [if_neg h]
        cases hc : endsMd e.1 with
        | false => simp [List.filter_cons, hc]
        | true =>
            cases hd : _should_remove_md_file e.1 stems created sp with
            | false => simp [List.filter_cons, hc, hd]
            | true => exact absurd ⟨hc, hd⟩ h
/-- `_cleanup_stale_symlinks` keeps exactly the non-stale entries and
removes the stale ones, in order. -/
theorem cleanup_symlinks_pair (dir : List (Str × Entry)) (names : List Str)
    (sdr : Nat) :
    _cleanup_stale_symlinks dir names sdr =
      (dir.filter (fun e => staleLink names sdr e.2 = false),
       (dir.filter (fun e => staleLink names sdr e.2)).map
         (fun e => Op.unlinked e.1)) := by
  induction dir with
  | nil => rfl
  | cons p rest ih =>
      obtain ⟨n, e⟩ := p
      cases e with
      | link t =>
          cases t with
          | none => simp [_cleanup_stale_symlinks, ih, staleLink, List.filter_cons]
          | some r =>
              by_cases hp : r.parent = sdr
              · by_cases hn : r.rname ∈ names
                · have h : ¬ (r.parent = sdr ∧ r.rname ∉ names) :=
                    fun hc => hc.2 hn
                  simp [_cleanup_stale_symlinks, ih, staleLink, List.filter_cons,
                    hp, hn, h]
                · have h : r.parent = sdr ∧ r.rname ∉ names := ⟨hp, hn⟩
                  simp [_cleanup_stale_symlinks, ih, staleLink, List.filter_cons,
                    hp, hn, h]
              · have h : ¬ (r.parent = sdr ∧ r.rname ∉ names) :=
                  fun hc => hp hc.1
                simp [_cleanup_stale_symlinks, ih, staleLink, List.filter_cons,
                  hp, h]
      | file i => simp [_cleanup_stale_symlinks, ih, staleLink, List.filter_cons]
/-- The write loop in terms of the processed outputs: a fold of
overwrites, the created names, and the write trace. -/
theorem extractWrites_eq (files : List TomlFile) (sp : Option Str) (incl : Bool)
    (dir : List (Str × Str)) :
    extractWrites files sp incl dir =
      ((processedPairs files sp incl).foldl
         (fun d nc => setEntry d nc.1 nc.2) dir,
       (processedPairs files sp incl).map Prod.fst,
       (processedPairs files sp incl).map (fun nc => Op.wrote nc.1 nc.2)) := by
  induction files generalizing dir with
  | nil => rfl
  | cons f rest ih =>
      simp only [extractWrites, processedPairs, List.filterMap_cons]
      cases _process_source_file f sp incl with
      | none =>
          simpa [processedPairs] using ih dir
      | some nc =>
          simp only [processedPairs] at ih
          simp [ih (setEntry dir nc.1 nc.2)]

/-- A fold of overwrites does not touch lookups at absent keys. -/
theorem lookup_foldl_setEntry_absent (pairs : List (Str × Str))
    (dir : List (Str × Str)) (n : Str) (h : n ∉ pairs.map Prod.fst) :
    lookupKV n (pairs.foldl (fun d nc => setEntry d nc.1 nc.2) dir) =
      lookupKV n dir := by
  induction pairs generalizing dir with
  | nil => rfl
  | cons nc rest ih =>
      rw [List.foldl_cons]
      have hn : n ≠ nc.1 := by
        intro he
        exact h (by simp [he])
      rw [ih (setEntry dir nc.1 nc.2) (fun hm => h (by simp [hm]))]
      exact lookup_setEntry_ne dir nc.1 n nc.2 hn

/-- With nodup names, each written pair is found after the write fold. -/
theorem lookup_foldl_setEntry_mem (pairs : List (Str × Str))
    (dir : List (Str × Str)) (n : Str) (c : Str)
    (hnd : (pairs.map Prod.fst).Nodup) (hm : (n, c) ∈ pairs) :
    lookupKV n (pairs.foldl (fun d nc => setEntry d nc.1 nc.2) dir) = some c := by
  induction pairs generalizing dir with
  | nil => simp at hm
  | cons nc rest ih =>
      rw [List.map_cons, List.nodup_cons] at hnd
      rw [List.foldl_cons]
      rcases List.mem_cons.mp hm with he | hrest
      · have hn : n ∉ rest.map Prod.fst := by
          rw [← he] at hnd
          exact hnd.1
        rw [lookup_foldl_setEntry_absent rest (setEntry dir nc.1 nc.2) n hn]
        rw [← he]
        exact lookup_setEntry_self dir n c
      · exact ih (setEntry dir nc.1 nc.2) hnd.2 hrest

/-- The write fold preserves nodup keys. -/
theorem foldl_setEntry_keys_nodup (pairs : List (Str × Str))
    (dir : List (Str × Str)) (hnd : (dir.map Prod.fst).Nodup) :
    ((pairs.foldl (fun d nc => setEntry d nc.1 nc.2) dir).map Prod.fst).Nodup := by
  induction pairs generalizing dir with
  | nil => exact hnd
  | cons nc rest ih =>
      rw [List.foldl_cons]
      exact ih (setEntry dir nc.1 nc.2) (setEntry_keys_nodup dir nc.1 nc.2 hnd)

/-- Re-writing bindings already present leaves the directory unchanged. -/
theorem foldl_setEntry_id (pairs : List (Str × Str)) (dir : List (Str × Str))
    (hnd : (dir.map Prod.fst).Nodup) (h : ∀ nc ∈ pairs, nc ∈ dir) :
    pairs.foldl (fun d nc => setEntry d nc.1 nc.2) dir = dir := by
  induction pairs with
  | nil => rfl
  | cons nc rest ih =>
      rw [List.foldl_cons]
      have hset : setEntry dir nc.1 nc.2 = dir := by
        have hm : (nc.1, nc.2) ∈ dir := by
          have := h nc (by simp)
          simpa using this
        exact setEntry_id dir nc.1 nc.2 hnd hm
      rw [hset]
      exact ih (fun x hx => h x (by simp [hx]))

/-- Branch equation: no entry at the link path. -/
theorem syncOne_none (dir : List (Str × Entry)) (f : SFile)
    (hl : lookupKV f.name dir = none) :
    syncOne dir f = (setEntry dir f.name (Entry.link (some f.res)),
      [Op.linked f.name]) := by
  simp [syncOne, hl]

/-- Branch equation: the entry resolves to the source's inode. -/
theorem syncOne_skip (dir : List (Str × Entry)) (f : SFile) (e : Entry)
    (hl : lookupKV f.name dir = some e)
    (he : entryInode e = some f.res.inode) :
    syncOne dir f = (dir, []) := by
  simp [syncOne, hl, he]

/-- Branch equation: the entry resolves elsewhere or fails to resolve. -/
theorem syncOne_replace (dir : List (Str × Entry)) (f : SFile) (e : Entry)
    (hl : lookupKV f.name dir = some e)
    (he : entryInode e ≠ some f.res.inode) :
    syncOne dir f = (setEntry dir f.name (Entry.link (some f.res)),
      [Op.unlinked f.name, Op.linked f.name]) := by
  cases hee : entryInode e with
  | none => simp [syncOne, hl, hee]
  | some i =>
      have hi : ¬ i = f.res.inode := by
        intro hii
        exact he (by rw [hee, hii])
      simp [syncOne, hl, hee, hi]

/-- The creation step keeps the correct link at the source's name, given
no aliasing between the looked-up entry and the source. -/
theorem syncOne_lookup_self (dir : List (Str × Entry)) (f : SFile)
    (hinv : ∀ e, lookupKV f.name dir = some e →
      entryInode e = some f.res.inode → e = Entry.link (some f.res)) :
    lookupKV f.name (syncOne dir f).1 = some (Entry.link (some f.res)) := by
  cases hl : lookupKV f.name dir with
  | none =>
      rw [syncOne_none dir f hl]
      exact lookup_setEntry_self dir f.name (Entry.link (some f.res))
  | some e =>
      by_cases he : entryInode e = some f.res.inode
      · rw [syncOne_skip dir f e hl he]
        rw [hl, hinv e hl he]
      · rw [syncOne_replace dir f e hl he]
        exact lookup_setEntry_self dir f.name (Entry.link (some f.res))

/-- The creation step does not touch entries at other names. -/
theorem syncOne_lookup_ne (dir : List (Str × Entry)) (f : SFile) (n : Str)
    (h : n ≠ f.name) : lookupKV n (syncOne dir f).1 = lookupKV n dir := by
  cases hl : lookupKV f.name dir with
  | none =>
      rw [syncOne_none dir f hl]
      exact lookup_setEntry_ne dir f.name n (Entry.link (some f.res)) h
  | some e =>
      by_cases he : entryInode e = some f.res.inode
      · rw [syncOne_skip dir f e hl he]
      · rw [syncOne_replace dir f e hl he]
        exact lookup_setEntry_ne dir f.name n (Entry.link (some f.res)) h

/-- The creation step preserves nodup keys. -/
theorem syncOne_keys_nodup (dir : List (Str × Entry)) (f : SFile)
    (hnd : (dir.map Prod.fst).Nodup) :
    (((syncOne dir f).1).map Prod.fst).Nodup := by
  cases hl : lookupKV f.name dir with
  | none =>
      rw [syncOne_none dir f hl]
      exact setEntry_keys_nodup dir f.name (Entry.link (some f.res)) hnd
  | some e =>
      by_cases he : entryInode e = some f.res.inode
      · rw [syncOne_skip dir f e hl he]
        exact hnd
      · rw [syncOne_replace dir f e hl he]
        exact setEntry_keys_nodup dir f.name (Entry.link (some f.res)) hnd

/-- The creation step preserves the no-aliasing invariant, given sources
have pairwise distinct inodes. -/
theorem syncOne_invAlias (files : List SFile) (dir : List (Str × Entry))
    (f : SFile) (hf : f ∈ files)
    (hinj : ∀ g ∈ files, ∀ g2 ∈ files, g.res.inode = g2.res.inode → g = g2)
    (hinv : InvAlias files dir) : InvAlias files (syncOne dir f).1 := by
  have hnew : InvAlias files (setEntry dir f.name (Entry.link (some f.res))) := by
    intro p hp g hg hio
    rcases mem_setEntry dir f.name (Entry.link (some f.res)) p hp with hpe | hpd
    · have hinode : f.res.inode = g.res.inode := by
        rw [hpe] at hio
        simpa [entryInode] using hio
      have hfg : f = g := hinj f hf g hg hinode
      rw [hpe, ← hfg]
    · exact hinv p hpd g hg hio
  cases hl : lookupKV f.name dir with
  | none =>
      rw [syncOne_none dir f hl]
      exact hnew
  | some e =>
      by_cases he : entryInode e = some f.res.inode
      · rw [syncOne_skip dir f e hl he]
        exact hinv
      · rw [syncOne_replace dir f e hl he]
        exact hnew

/-- The creation pass preserves the no-aliasing invariant. -/
theorem syncCreateAll_invAlias (files0 : List SFile) (files : List SFile)
    (dir : List (Str × Entry)) (hsub : ∀ f ∈ files, f ∈ files0)
    (hinj : ∀ g ∈ files0, ∀ g2 ∈ files0, g.res.inode = g2.res.inode → g = g2)
    (hinv : InvAlias files0 dir) : InvAlias files0 (syncCreateAll files dir).1 := by
  induction files generalizing dir with
  | nil => exact hinv
  | cons f rest ih =>
      simp only [syncCreateAll]
      exact ih (syncOne dir f).1 (fun g hg => hsub g (List.mem_cons_of_mem f hg))
        (syncOne_invAlias files0 dir f (hsub f (List.mem_cons_self f rest)) hinj hinv)

/-- The creation pass preserves nodup keys. -/
theorem syncCreateAll_keys_nodup (files : List SFile) (dir : List (Str × Entry))
    (hnd : (dir.map Prod.fst).Nodup) :
    (((syncCreateAll files dir).1).map Prod.fst).Nodup := by
  induction files generalizing dir with
  | nil => exact hnd
  | cons f rest ih =>
      simp only [syncCreateAll]
      exact ih (syncOne dir f).1 (syncOne_keys_nodup dir f hnd)

/-- The creation pass does not touch entries at names outside the batch. -/
theorem syncCreateAll_lookup_ne (files : List SFile) (dir : List (Str × Entry))
    (n : Str) (h : n ∉ files.map (fun f => f.name)) :
    lookupKV n (syncCreateAll files dir).1 = lookupKV n dir := by
  induction files generalizing dir with
  | nil => rfl
  | cons f rest ih =>
      simp only [syncCreateAll]
      have hn : n ≠ f.name := fun he => h (by simp [he])
      rw [ih (syncOne dir f).1 (fun hm => h (by simp [hm]))]
      exact syncOne_lookup_ne dir f n hn

/-- After the creation pass, every source's name holds the correct link. -/
theorem syncCreateAll_lookup (files0 : List SFile) (files : List SFile)
    (dir : List (Str × Entry)) (hsub : ∀ f ∈ files, f ∈ files0)
    (hnd : (files.map (fun f => f.name)).Nodup)
    (hinj : ∀ g ∈ files0, ∀ g2 ∈ files0, g.res.inode = g2.res.inode → g = g2)
    (hinv : InvAlias files0 dir) :
    ∀ f ∈ files, lookupKV f.name (syncCreateAll files dir).1 =
      some (Entry.link (some f.res)) := by
  induction files generalizing dir with
  | nil =>
      intro f hf
      simp at hf
  | cons g rest ih =>
      rw [List.map_cons, List.nodup_cons] at hnd
      intro f hf
      simp only [syncCreateAll]
      rcases List.mem_cons.mp hf with hfg | hfr
      · rw [hfg]
        rw [syncCreateAll_lookup_ne rest (syncOne dir g).1 g.name (hfg ▸ hnd.1)]
        refine syncOne_lookup_self dir g (fun e hl he => ?_)
        exact hinv (g.name, e) (mem_of_lookup dir g.name e hl) g
          (hsub g (by simp)) he
      · exact ih (syncOne dir g).1 (fun x hx => hsub x (List.mem_cons_of_mem g hx))
          hnd.2
          (syncOne_invAlias files0 dir g (hsub g (List.mem_cons_self g rest))
            hinj hinv) f hfr

/-- When every source already has its correct link, the creation pass does
nothing and records no operation. -/
theorem syncCreateAll_allskip (files : List SFile) (dir : List (Str × Entry))
    (h : ∀ f ∈ files, lookupKV f.name dir = some (Entry.link (some f.res))) :
    syncCreateAll files dir = (dir, []) := by
  induction files with
  | nil => rfl
  | cons f rest ih =>
      simp only [syncCreateAll]
      rw [syncOne_skip dir f (Entry.link (some f.res)) (h f (by simp)) rfl]
      rw [ih (fun x hx => h x (by simp [hx]))]
      rfl

/-- A filter by a predicate false on every member yields the empty list. -/
theorem filter_false_nil {α : Type} (l : List α) (p : α → Bool)
    (h : ∀ a ∈ l, p a = false) : l.filter p = [] := by
  induction l with
  | nil => rfl
  | cons a rest ih =>
      rw [List.filter_cons, h a (by simp)]
      simp only [Bool.false_eq_true, if_false]
      exact ih (fun x hx => h x (by simp [hx]))

/-- `_sync_symlinks_to_dir` in closed form: creation fold, then the two
cleanup filters. -/
theorem sync_symlinks_eq (files : List SFile) (dir : List (Str × Entry))
    (sdr : Nat) :
    _sync_symlinks_to_dir files dir sdr =
      (((syncCreateAll files dir).1).filter
         (fun e => staleLink (files.map (fun f => f.name)) sdr e.2 = false),
       (syncCreateAll files dir).2 ++
         ((((syncCreateAll files dir).1).filter
            (fun e => staleLink (files.map (fun f => f.name)) sdr e.2)).map
           (fun e => Op.unlinked e.1))) := by
  simp only [_sync_symlinks_to_dir, cleanup_symlinks_pair]

/-- `extract_prompts_to_md` in closed form: overwrite fold of the
processed outputs, then the two cleanup filters. -/
theorem extract_eq (files : List TomlFile) (dir : List (Str × Str))
    (sp : Option Str) :
    extract_prompts_to_md files dir sp =
      ((((processedPairs files sp false).foldl
           (fun d nc => setEntry d nc.1 nc.2) dir).filter
          (fun e => ¬ (endsMd e.1 = true ∧
             _should_remove_md_file e.1 (files.map (fun f => f.stem))
               ((processedPairs files sp false).map Prod.fst) sp = true))),
       (processedPairs files sp false).map (fun nc => Op.wrote nc.1 nc.2) ++
         ((((processedPairs files sp false).foldl
              (fun d nc => setEntry d nc.1 nc.2) dir).filter
            (fun e => endsMd e.1 &&
               _should_remove_md_file e.1 (files.map (fun f => f.stem))
                 ((processedPairs files sp false).map Prod.fst) sp)).map
           (fun e => Op.removed e.1))) := by
  simp only [extract_prompts_to_md, extractWrites_eq, cleanup_md_pair]

/-- A second symlink sync over unchanged sources leaves the directory
unchanged and performs no operation, under no-aliasing normality: source
names pairwise distinct, source inodes pairwise distinct, every source
resolving to its own basename, directory keys distinct, and no entry
aliasing a source other than by being its correct link. -/
theorem sync_symlinks_second_run (files : List SFile) (dir : List (Str × Entry))
    (sdr : Nat) (hnd : (files.map (fun f => f.name)).Nodup)
    (hin : (files.map (fun f => f.res.inode)).Nodup)
    (hrn : ∀ f ∈ files, f.res.rname = f.name)
    (hdk : (dir.map Prod.fst).Nodup)
    (hinv : InvAlias files dir) :
    _sync_symlinks_to_dir files ((_sync_symlinks_to_dir files dir sdr).1) sdr =
      ((_sync_symlinks_to_dir files dir sdr).1, []) := by
  have hinj := inj_of_nodup_map files (fun f => f.res.inode) hin
  have hC1look : ∀ f ∈ files,
      lookupKV f.name (syncCreateAll files dir).1 =
        some (Entry.link (some f.res)) :=
    syncCreateAll_lookup files files dir (fun f hf => hf) hnd hinj hinv
  have hC1nd : (((syncCreateAll files dir).1).map Prod.fst).Nodup :=
    syncCreateAll_keys_nodup files dir hdk
  have hS1eq : (_sync_symlinks_to_dir files dir sdr).1 =
      ((syncCreateAll files dir).1).filter
        (fun e => staleLink (files.map (fun f => f.name)) sdr e.2 = false) := by
    rw [sync_symlinks_eq]
  have hS1nd : (((_sync_symlinks_to_dir files dir sdr).1).map Prod.fst).Nodup := by
    rw [hS1eq]
    exact filter_keys_nodup _ _ hC1nd
  have hS1look : ∀ f ∈ files,
      lookupKV f.name (_sync_symlinks_to_dir files dir sdr).1 =
        some (Entry.link (some f.res)) := by
    intro f hf
    have hmemC1 : (f.name, Entry.link (some f.res)) ∈ (syncCreateAll files dir).1 :=
      mem_of_lookup _ _ _ (hC1look f hf)
    have hn : f.res.rname ∈ files.map (fun f => f.name) := by
      rw [hrn f hf]
      exact List.mem_map.mpr ⟨f, hf, rfl⟩
    have hkeep : staleLink (files.map (fun f => f.name)) sdr
        (Entry.link (some f.res)) = false := by
      simp [staleLink, hn]
    refine lookup_of_mem_nodup _ _ _ hS1nd ?_
    rw [hS1eq]
    refine List.mem_filter.mpr ⟨hmemC1, ?_⟩
    simp [hkeep]
  have hallmem : ∀ e ∈ (_sync_symlinks_to_dir files dir sdr).1,
      staleLink (files.map (fun f => f.name)) sdr e.2 = false := by
    intro e he
    rw [hS1eq] at he
    exact of_decide_eq_true (List.mem_filter.mp he).2
  have hskip : syncCreateAll files (_sync_symlinks_to_dir files dir sdr).1 =
      ((_sync_symlinks_to_dir files dir sdr).1, []) :=
    syncCreateAll_allskip files _ hS1look
  rw [sync_symlinks_eq files ((_sync_symlinks_to_dir files dir sdr).1) sdr, hskip]
  show ((((_sync_symlinks_to_dir files dir sdr).1).filter _),
      [] ++ (((_sync_symlinks_to_dir files dir sdr).1).filter _).map _) = _
  rw [filter_stable _ _ (fun e he => decide_eq_true (hallmem e he))]
  rw [filter_false_nil _ _ hallmem]
  rfl

/-- A second extraction over unchanged sources leaves the directory
unchanged and performs exactly the unconditional rewrites of the processed
outputs, when output names are pairwise distinct, every created output
survives its own stale check, and the directory keys are distinct. -/
theorem extract_second_run (files : List TomlFile) (dir : List (Str × Str))
    (sp : Option Str)
    (hnd : ((processedPairs files sp false).map Prod.fst).Nodup)
    (hsur : ∀ nc ∈ processedPairs files sp false,
       _should_remove_md_file nc.1 (files.map (fun f => f.stem))
         ((processedPairs files sp false).map Prod.fst) sp = false)
    (hdk : (dir.map Prod.fst).Nodup) :
    extract_prompts_to_md files ((extract_prompts_to_md files dir sp).1) sp =
      ((extract_prompts_to_md files dir sp).1,
       (processedPairs files sp false).map (fun nc => Op.wrote nc.1 nc.2)) ∧
    ∀ nc ∈ processedPairs files sp false,
      nc ∈ (extract_prompts_to_md files dir sp).1 := by
  have hS1eq : (extract_prompts_to_md files dir sp).1 =
      ((processedPairs files sp false).foldl
          (fun d nc => setEntry d nc.1 nc.2) dir).filter
        (fun e => ¬ (endsMd e.1 = true ∧
           _should_remove_md_file e.1 (files.map (fun f => f.stem))
             ((processedPairs files sp false).map Prod.fst) sp = true)) := by
    rw [extract_eq]
  have hD1nd : ((((processedPairs files sp false).foldl
      (fun d nc => setEntry d nc.1 nc.2) dir)).map Prod.fst).Nodup :=
    foldl_setEntry_keys_nodup _ dir hdk
  have hS1nd : (((extract_prompts_to_md files dir sp).1).map Prod.fst).Nodup := by
    rw [hS1eq]
    exact filter_keys_nodup _ _ hD1nd
  have hmemS1 : ∀ nc ∈ processedPairs files sp false,
      nc ∈ (extract_prompts_to_md files dir sp).1 := by
    intro nc hnc
    rw [hS1eq]
    refine List.mem_filter.mpr ⟨?_, ?_⟩
    · refine mem_of_lookup _ _ _ ?_
      exact lookup_foldl_setEntry_mem _ dir nc.1 nc.2 hnd hnc
    · simp [hsur nc hnc]
  have hkeepS1 : ∀ e ∈ (extract_prompts_to_md files dir sp).1,
      ¬ (endsMd e.1 = true ∧
         _should_remove_md_file e.1 (files.map (fun f => f.stem))
           ((processedPairs files sp false).map Prod.fst) sp = true) := by
    intro e he
    rw [hS1eq] at he
    exact of_decide_eq_true (List.mem_filter.mp he).2
  have hid : (processedPairs files sp false).foldl
      (fun d nc => setEntry d nc.1 nc.2) (extract_prompts_to_md files dir sp).1 =
      (extract_prompts_to_md files dir sp).1 :=
    foldl_setEntry_id _ _ hS1nd hmemS1
  have hrem : ∀ e ∈ (extract_prompts_to_md files dir sp).1,
      (endsMd e.1 && _should_remove_md_file e.1 (files.map (fun f => f.stem))
        ((processedPairs files sp false).map Prod.fst) sp) = false := by
    intro e he
    have hk := hkeepS1 e he
    cases hc : endsMd e.1 with
    | false => rfl
    | true =>
        cases hd : _should_remove_md_file e.1 (files.map (fun f => f.stem))
            ((processedPairs files sp false).map Prod.fst) sp with
        | false => rfl
        | true => exact absurd ⟨hc, hd⟩ hk
  refine ⟨?_, hmemS1⟩
  rw [extract_eq files ((extract_prompts_to_md files dir sp).1) sp, hid]
  rw [filter_stable _ _ (fun e he => decide_eq_true (hkeepS1 e he))]
  rw [filter_false_nil _ _ hrem]
  simp

/-- Claim C5 (amended): a full reconciliation pass is idempotent on the
resulting state — running it a second time over unchanged source input
yields exactly the state the first run produced, and the symlink sync
performs no mutation at all on the second run; but the second run is not
mutation-free: every derived `.md` output is unconditionally rewritten
(with identical content already present in the state).  Normality
hypotheses: distinct source names and inodes, sources resolving to their
own basenames, no aliasing of sources in the initial directory, distinct
processed output names, every processed output surviving its own stale
check, and distinct initial directory keys. -/
theorem C5_idempotent_state_amended (sf : List SFile) (sdr : Nat)
    (tf : List TomlFile) (sp : Option Str) (st0 : RState)
    (h1 : (sf.map (fun f => f.name)).Nodup)
    (h2 : (sf.map (fun f => f.res.inode)).Nodup)
    (h3 : ∀ f ∈ sf, f.res.rname = f.name)
    (h4 : (st0.sym.map Prod.fst).Nodup)
    (h5 : InvAlias sf st0.sym)
    (h6 : ((processedPairs tf sp false).map Prod.fst).Nodup)
    (h7 : ∀ nc ∈ processedPairs tf sp false,
       _should_remove_md_file nc.1 (tf.map (fun f => f.stem))
         ((processedPairs tf sp false).map Prod.fst) sp = false)
    (h8 : (st0.md.map Prod.fst).Nodup) :
    (fullPass sf sdr tf sp (fullPass sf sdr tf sp st0).1).1 =
      (fullPass sf sdr tf sp st0).1 ∧
    ∀ op ∈ (fullPass sf sdr tf sp (fullPass sf sdr tf sp st0).1).2,
      ∃ n c, op = Op.wrote n c ∧ (n, c) ∈ (fullPass sf sdr tf sp st0).1.md := by
  have hsym := sync_symlinks_second_run sf st0.sym sdr h1 h2 h3 h4 h5
  have hmd := extract_second_run tf st0.md sp h6 h7 h8
  have hsnd : fullPass sf sdr tf sp (fullPass sf sdr tf sp st0).1 =
      (⟨(_sync_symlinks_to_dir sf (_sync_symlinks_to_dir sf st0.sym sdr).1 sdr).1,
        (extract_prompts_to_md tf (extract_prompts_to_md tf st0.md sp).1 sp).1⟩,
       (_sync_symlinks_to_dir sf (_sync_symlinks_to_dir sf st0.sym sdr).1 sdr).2 ++
       (extract_prompts_to_md tf (extract_prompts_to_md tf st0.md sp).1 sp).2) := rfl
  constructor
  · rw [hsnd, hsym, hmd.1]
    rfl
  · intro op hop
    rw [hsnd, hsym, hmd.1] at hop
    simp only [List.nil_append] at hop
    rcases List.mem_map.mp hop with ⟨nc, hnc, hco⟩
    exact ⟨nc.1, nc.2, hco.symm, hmd.2 nc hnc⟩

/-- Claim C5 fails as stated: on unchanged input, the second full pass is
not mutation-free — it rewrites the `.md` output that the first pass
created and that is already present with identical content. -/
theorem C5_second_run_counterexample :
    (fullPass [] 0 [⟨str "a", some [(str "prompt", str "Hi")]⟩] none
        (fullPass [] 0 [⟨str "a", some [(str "prompt", str "Hi")]⟩] none
          ⟨[], []⟩).1).2 =
      [Op.wrote (str "a.md") (str "Hi")] ∧
    (str "a.md", str "Hi") ∈
      (fullPass [] 0 [⟨str "a", some [(str "prompt", str "Hi")]⟩] none
        ⟨[], []⟩).1.md ∧
    [Op.wrote (str "a.md") (str "Hi")] ≠ ([] : List Op) := by
  decide

/-- Witness for the amended claim C5 at concrete inputs. -/
theorem C5_idempotent_witness :
    InvAlias [⟨str "s.toml", ⟨3, str "s.toml", 7⟩⟩] [] ∧
    (∀ nc ∈ processedPairs [⟨str "b", some [(str "prompt", str "Hi")]⟩] none false,
       _should_remove_md_file nc.1
         ([⟨str "b", some [(str "prompt", str "Hi")]⟩].map
           (fun f => TomlFile.stem f))
         ((processedPairs [⟨str "b", some [(str "prompt", str "Hi")]⟩] none
             false).map Prod.fst) none = false) ∧
    (fullPass [⟨str "s.toml", ⟨3, str "s.toml", 7⟩⟩] 3
        [⟨str "b", some [(str "prompt", str "Hi")]⟩] none
        (fullPass [⟨str "s.toml", ⟨3, str "s.toml", 7⟩⟩] 3
          [⟨str "b", some [(str "prompt", str "Hi")]⟩] none ⟨[], []⟩).1).1 =
      (fullPass [⟨str "s.toml", ⟨3, str "s.toml", 7⟩⟩] 3
        [⟨str "b", some [(str "prompt", str "Hi")]⟩] none ⟨[], []⟩).1 := by
  have h5 : InvAlias [⟨str "s.toml", ⟨3, str "s.toml", 7⟩⟩] [] :=
    fun p hp => absurd hp (List.not_mem_nil p)
  have h7 : ∀ nc ∈ processedPairs [⟨str "b", some [(str "prompt", str "Hi")]⟩]
      none false,
      _should_remove_md_file nc.1
        ([⟨str "b", some [(str "prompt", str "Hi")]⟩].map
          (fun f => TomlFile.stem f))
        ((processedPairs [⟨str "b", some [(str "prompt", str "Hi")]⟩] none
            false).map Prod.fst) none = false := by decide
  refine ⟨h5, h7, ?_⟩
  exact (C5_idempotent_state_amended [⟨str "s.toml", ⟨3, str "s.toml", 7⟩⟩] 3
    [⟨str "b", some [(str "prompt", str "Hi")]⟩] none ⟨[], []⟩
    (by decide) (by decide) (by decide) (by decide) h5 (by decide) h7
    (by decide)).1

/-- A list is a prefix of any extension of itself. -/
theorem isPrefixOf_self_append (l a : Str) : l.isPrefixOf (l ++ a) = true := by
  induction l with
  | nil => cases a <;> rfl
  | cons c rest ih => simp [List.isPrefixOf, ih]

/-- `splitFirst` at an immediate occurrence of a nonempty token. -/
theorem splitFirst_here (tok xs : Str) (h : tok.isPrefixOf xs = true)
    (htok : tok ≠ []) : splitFirst tok xs = some ([], xs.drop tok.length) := by
  cases xs with
  | nil =>
      cases tok with
      | nil => exact absurd rfl htok
      | cons t tt => simp [List.isPrefixOf] at h
  | cons c rest =>
      simp only [splitFirst]
      rw [if_pos h]

/-- `splitFirst` finds the occurrence after a block free of the token's
first character. -/
theorem splitFirst_exact (t0 : Char) (ts b a : Str) (hb : ∀ c ∈ b, c ≠ t0) :
    splitFirst (t0 :: ts) (b ++ (t0 :: ts) ++ a) = some (b, a) := by
  induction b with
  | nil =>
      rw [List.nil_append]
      rw [splitFirst_here (t0 :: ts) ((t0 :: ts) ++ a)
        (isPrefixOf_self_append (t0 :: ts) a) (by simp)]
      rw [List.drop_left]
  | cons c b' ih =>
      have hc : c ≠ t0 := hb c (by simp)
      have hts : (t0 == c) = false := beq_eq_false_iff_ne.mpr (fun h => hc h.symm)
      have hnp : (t0 :: ts).isPrefixOf (c :: (b' ++ (t0 :: ts) ++ a)) = false := by
        simp [List.isPrefixOf, hts]
      have hgoal : (c :: b') ++ (t0 :: ts) ++ a = c :: (b' ++ (t0 :: ts) ++ a) := by
        simp
      rw [hgoal]
      simp only [splitFirst]
      rw [if_neg (fun hcon => by rw [hnp] at hcon; exact Bool.noConfusion hcon)]
      rw [ih (fun x hx => hb x (by simp [hx]))]
      rfl

/-- A token cannot be a prefix of the empty list unless empty. -/
theorem isPrefixOf_nil_eq (tok : Str) (h : tok.isPrefixOf [] = true) : tok = [] := by
  cases tok with
  | nil => rfl
  | cons t tt => simp [List.isPrefixOf] at h

/-- Reconstruction: a successful `splitFirst` decomposes its input. -/
theorem splitFirst_eq (tok : Str) (xs b a : Str)
    (h : splitFirst tok xs = some (b, a)) : xs = b ++ tok ++ a := by
  induction xs generalizing b with
  | nil =>
      simp only [splitFirst] at h
      by_cases ht : tok.isPrefixOf [] = true
      · rw [if_pos ht] at h
        obtain ⟨hb, ha⟩ := Prod.mk.injEq _ _ _ _ ▸ Option.some.inj h
        rw [← hb, ← ha, isPrefixOf_nil_eq tok ht]
        rfl
      · rw [if_neg ht] at h
        exact absurd h (by simp)
  | cons c rest ih =>
      simp only [splitFirst] at h
      by_cases ht : tok.isPrefixOf (c :: rest) = true
      · rw [if_pos ht] at h
        obtain ⟨hb, ha⟩ := Prod.mk.injEq _ _ _ _ ▸ Option.some.inj h
        obtain ⟨t, htt⟩ := List.isPrefixOf_iff_prefix.mp ht
        rw [← hb, List.nil_append, ← ha, ← htt, List.drop_left]
      · rw [if_neg ht] at h
        rcases Option.map_eq_some'.mp h with ⟨p, hp, hpe⟩
        obtain ⟨hb, ha⟩ := Prod.mk.injEq _ _ _ _ ▸ hpe
        have hih := ih p.1 (by rw [hp, ← ha])
        rw [← hb, List.cons_append, List.cons_append, ← hih]

/-- `unqAux` on a non-quote head keeps the character. -/
theorem unqAux_ne (c : Char) (xs : Str) (hc : c ≠ qc) :
    unqAux (c :: xs) = (unqAux xs).map (fun t => c :: t) := by
  cases xs with
  | nil =>
      simp only [unqAux]
      rw [if_neg hc]
      rfl
  | cons c2 rest2 =>
      simp only [unqAux]
      rw [if_neg hc]

/-- A doubled quote unescapes to a single quote. -/
theorem unqAux_qq (xs : Str) :
    unqAux (qc :: qc :: xs) = (unqAux xs).map (fun t => qc :: t) := by
  simp [unqAux]

/-- Unescaping undoes quote-doubling up to the closing quote. -/
theorem unqAux_escape (d : Str) :
    unqAux (_escape_yaml_string d ++ [qc]) = some d := by
  induction d with
  | nil => rfl
  | cons c rest ih =>
      by_cases hc : c = qc
      · subst hc
        have he : _escape_yaml_string (qc :: rest) ++ [qc] =
            qc :: qc :: (_escape_yaml_string rest ++ [qc]) := by
          simp [_escape_yaml_string]
        rw [he, unqAux_qq, ih]
        rfl
      · have he : _escape_yaml_string (c :: rest) ++ [qc] =
            c :: (_escape_yaml_string rest ++ [qc]) := by
          simp [_escape_yaml_string, hc]
        rw [he, unqAux_ne c _ hc, ih]
        rfl

/-- Every character the escaper emits is an input character or a quote. -/
theorem escape_chars (d : Str) :
    ∀ c ∈ _escape_yaml_string d, c ∈ d ∨ c = qc := by
  induction d with
  | nil =>
      intro c hc
      rw [show _escape_yaml_string [] = [] from rfl] at hc
      cases hc
  | cons x rest ih =>
      intro c hc
      by_cases hx : x = qc
      · simp only [_escape_yaml_string] at hc
        rw [if_pos hx] at hc
        rcases List.mem_cons.mp hc with hc1 | hc2
        · exact Or.inr hc1
        · rcases List.mem_cons.mp hc2 with hc3 | hc4
          · exact Or.inr hc3
          · rcases ih c hc4 with h | h
            · exact Or.inl (List.mem_cons_of_mem x h)
            · exact Or.inr h
      · simp only [_escape_yaml_string] at hc
        rw [if_neg hx] at hc
        rcases List.mem_cons.mp hc with hc1 | hc2
        · exact Or.inl (by rw [hc1]; exact List.mem_cons_self x rest)
        · rcases ih c hc2 with h | h
          · exact Or.inl (List.mem_cons_of_mem x h)
          · exact Or.inr h

/-- Splitting a newline-free text into lines yields the text itself. -/
theorem splitLines_no_nl (l : Str) (h : ∀ c ∈ l, c ≠ '\n') :
    splitLines l = [l] := by
  induction l with
  | nil => rfl
  | cons c rest ih =>
      have hc : c ≠ '\n' := h c (by simp)
      rw [splitLines]
      rw [ih (fun x hx => h x (by simp [hx]))]
      simp [hc]

/-- The serialized description line, written out. -/
theorem format_desc_eq (d : Str) (hd : ∀ c ∈ d, c ≠ '\n') :
    _format_yaml_description d =
      str "description: " ++ qc :: (_escape_yaml_string d ++ [qc]) := by
  have hnin : ¬ ('\n' ∈ d) := fun hm => hd '\n' hm rfl
  simp only [_format_yaml_description]
  rw [if_neg hnin]

/-- No character of the serialized description line is a newline. -/
theorem format_desc_no_nl (d : Str) (hd : ∀ c ∈ d, c ≠ '\n') :
    ∀ c ∈ str "description: " ++ qc :: (_escape_yaml_string d ++ [qc]),
      c ≠ '\n' := by
  have hlit : ∀ c ∈ str "description: ", c ≠ '\n' := by decide
  intro c hc
  rcases List.mem_append.mp hc with h1 | h2
  · exact hlit c h1
  · rcases List.mem_cons.mp h2 with h3 | h4
    · rw [h3]
      decide
    · rcases List.mem_append.mp h4 with h5 | h6
      · rcases escape_chars d c h5 with h | h
        · exact hd c h
        · rw [h]
          decide
      · simp only [List.mem_singleton] at h6
        rw [h6]
        decide

/-- Parsing one serialized description line yields the description. -/
theorem parseLine_desc (d : Str) :
    parseLine (str "description: " ++ qc :: (_escape_yaml_string d ++ [qc])) =
      some (str "description", d) := by
  have hsp : splitFirst (str ": ")
      (str "description: " ++ qc :: (_escape_yaml_string d ++ [qc])) =
      some (str "description", qc :: (_escape_yaml_string d ++ [qc])) := by
    exact splitFirst_exact ':' (str " ") (str "description")
      (qc :: (_escape_yaml_string d ++ [qc])) (by decide)
  simp only [parseLine, hsp]
  simp only [parseValue]
  rw [if_pos trivial, unqAux_escape]
  rfl

/-- The head characters of two lists differ, so neither prefixes the other. -/
theorem isPrefixOf_ne_head (x y : Char) (ts ys : Str) (h : (x == y) = false) :
    (x :: ts).isPrefixOf (y :: ys) = false := by
  simp [List.isPrefixOf, h]

/-- Successful front-matter parse, assembled from its three stages. -/
theorem parse_fm_eq (text b body : Str) (m : List (Str × Str))
    (hopen : (str "---\n").isPrefixOf text = true)
    (hsp : splitFirst (str "\n---\n") (text.drop 3) = some (b, body))
    (hbl : parseBlockLines (splitLines b) = some m) :
    _parse_yaml_frontmatter text = (some m, body) := by
  simp only [_parse_yaml_frontmatter]
  rw [if_pos hopen]
  simp only [hsp, hbl]

/-- The block of a serialized description parses to the one-field
mapping. -/
theorem parseBlockLines_desc (d : Str) (hd : ∀ c ∈ d, c ≠ '\n') :
    parseBlockLines (splitLines
      ('\n' :: (str "description: " ++ qc :: (_escape_yaml_string d ++ [qc])))) =
      some [(str "description", d)] := by
  have hnl := format_desc_no_nl d hd
  have hsl : splitLines
      ('\n' :: (str "description: " ++ qc :: (_escape_yaml_string d ++ [qc]))) =
      [[], str "description: " ++ qc :: (_escape_yaml_string d ++ [qc])] := by
    rw [splitLines]
    rw [splitLines_no_nl _ hnl]
    simp
  have hcons : str "description: " ++ qc :: (_escape_yaml_string d ++ [qc]) =
      'd' :: (str "escription: " ++ qc :: (_escape_yaml_string d ++ [qc])) := rfl
  have hne : ¬ (str "description: " ++ qc :: (_escape_yaml_string d ++ [qc]) = []) := by
    rw [hcons]
    simp
  rw [hsl]
  simp only [parseBlockLines]
  rw [if_pos trivial, if_neg hne, parseLine_desc d]

/-- Unfolding equation of `splitFirst` on a cons cell. -/
theorem splitFirst_cons (tok : Str) (c : Char) (rest : Str) :
    splitFirst tok (c :: rest) =
      if tok.isPrefixOf (c :: rest) = true then
        some ([], (c :: rest).drop tok.length)
      else (splitFirst tok rest).map (fun p => (c :: p.1, p.2)) := rfl

/-- Splitting the serialized file at its closing delimiter. -/
theorem split_desc_text (d p : Str) (hd : ∀ c ∈ d, c ≠ '\n') :
    splitFirst (str "\n---\n")
      ('\n' :: ((str "description: " ++ qc :: (_escape_yaml_string d ++ [qc])) ++
        (str "\n---\n" ++ ('\n' :: p)))) =
      some ('\n' :: (str "description: " ++ qc :: (_escape_yaml_string d ++ [qc])),
        '\n' :: p) := by
  have hnl := format_desc_no_nl d hd
  have hrest : (str "description: " ++ qc :: (_escape_yaml_string d ++ [qc])) ++
      (str "\n---\n" ++ ('\n' :: p)) =
      'd' :: ((str "escription: " ++ qc :: (_escape_yaml_string d ++ [qc])) ++
        (str "\n---\n" ++ ('\n' :: p))) := rfl
  have hnp : (str "\n---\n").isPrefixOf
      ('\n' :: ((str "description: " ++ qc :: (_escape_yaml_string d ++ [qc])) ++
        (str "\n---\n" ++ ('\n' :: p)))) = false := by
    rw [hrest]
    rfl
  rw [splitFirst_cons]
  rw [if_neg (fun hcon => by rw [hnp] at hcon; exact Bool.noConfusion hcon)]
  rw [show (str "description: " ++ qc :: (_escape_yaml_string d ++ [qc])) ++
      (str "\n---\n" ++ ('\n' :: p)) =
      ((str "description: " ++ qc :: (_escape_yaml_string d ++ [qc])) ++
        str "\n---\n") ++ ('\n' :: p) from (List.append_assoc _ _ _).symm]
  rw [show splitFirst (str "\n---\n")
      (((str "description: " ++ qc :: (_escape_yaml_string d ++ [qc])) ++
        str "\n---\n") ++ ('\n' :: p)) =
      some ((str "description: " ++ qc :: (_escape_yaml_string d ++ [qc])),
        '\n' :: p)
    from splitFirst_exact '\n' (str "---\n") _ _ hnl]
  rfl

/-- Claim C6 (amended): for every newline-free description, serializing
with the fallback codec and parsing the serialized file yields back
exactly the one-field mapping and the body — single-quote doubling is
reversible.  (Descriptions containing newlines are degraded to spaces by
the fallback serializer, so they do not round-trip to the same mapping.) -/
theorem C6_roundtrip_amended (d p : Str) (hd : ∀ c ∈ d, c ≠ '\n') :
    _parse_yaml_frontmatter (_write_prompt_file_content p (some d)) =
      (some [(str "description", d)], '\n' :: p) := by
  have hfm := format_desc_eq d hd
  have htext : _write_prompt_file_content p (some d) =
      str "---\n" ++ ((str "description: " ++ qc :: (_escape_yaml_string d ++ [qc])) ++
        (str "\n---\n" ++ ('\n' :: p))) := by
    simp only [_write_prompt_file_content]
    rw [hfm]
    simp [List.append_assoc]
  rw [htext]
  refine parse_fm_eq _
    ('\n' :: (str "description: " ++ qc :: (_escape_yaml_string d ++ [qc])))
    ('\n' :: p) [(str "description", d)] ?_ ?_ ?_
  · exact isPrefixOf_self_append _ _
  · have hdrop : (str "---\n" ++
        ((str "description: " ++ qc :: (_escape_yaml_string d ++ [qc])) ++
          (str "\n---\n" ++ ('\n' :: p)))).drop 3 =
        '\n' :: ((str "description: " ++ qc :: (_escape_yaml_string d ++ [qc])) ++
          (str "\n---\n" ++ ('\n' :: p))) := rfl
    rw [hdrop]
    exact split_desc_text d p hd
  · exact parseBlockLines_desc d hd

/-- Claim C6 fails as stated for multi-line values: the fallback
serializer replaces the newline of `"a\nb"` with a space, so parsing the
serialized file yields `"a b"`, not the original mapping. -/
theorem C6_roundtrip_counterexample :
    (_parse_yaml_frontmatter
        (_write_prompt_file_content (str "P") (some (str "a\nb")))).1 =
      some [(str "description", str "a b")] ∧
    some [(str "description", str "a b")] ≠
      some [(str "description", str "a\nb")] := by
  decide

/-- Witness for the amended claim C6 at the spec's concrete example. -/
theorem C6_roundtrip_witness :
    (∀ c ∈ str "it\x27s a test", c ≠ '\n') ∧
    _parse_yaml_frontmatter
        (_write_prompt_file_content (str "Hello") (some (str "it\x27s a test"))) =
      (some [(str "description", str "it\x27s a test")], '\n' :: str "Hello") := by
  refine ⟨by decide, ?_⟩
  exact C6_roundtrip_amended (str "it\x27s a test") (str "Hello") (by decide)

/-- Claim C7: front-matter parsing is total — when the text does not begin
with the opening delimiter, or no closing delimiter follows, or the
enclosed block fails structural parsing, the parse returns `(none, text)`
with the original text unchanged; and on success the input decomposes as
the opening delimiter, the parsed block, the closing delimiter, and the
returned body. -/
theorem C7_parse_total (text : Str) :
    (¬ (str "---\n").isPrefixOf text = true →
       _parse_yaml_frontmatter text = (none, text)) ∧
    ((str "---\n").isPrefixOf text = true →
       splitFirst (str "\n---\n") (text.drop 3) = none →
       _parse_yaml_frontmatter text = (none, text)) ∧
    (∀ b body, (str "---\n").isPrefixOf text = true →
       splitFirst (str "\n---\n") (text.drop 3) = some (b, body) →
       parseBlockLines (splitLines b) = none →
       _parse_yaml_frontmatter text = (none, text)) ∧
    (∀ m body, _parse_yaml_frontmatter text = (some m, body) →
       ∃ b, text = str "---" ++ (b ++ (str "\n---\n" ++ body)) ∧
         parseBlockLines (splitLines b) = some m) := by
  refine ⟨?_, ?_, ?_, ?_⟩
  · intro h
    simp only [_parse_yaml_frontmatter]
    rw [if_neg h]
  · intro h1 h2
    simp only [_parse_yaml_frontmatter]
    rw [if_pos h1]
    simp only [h2]
  · intro b body h1 h2 h3
    simp only [_parse_yaml_frontmatter]
    rw [if_pos h1]
    simp only [h2, h3]
  · intro m body h
    by_cases h1 : (str "---\n").isPrefixOf text = true
    · cases h2 : splitFirst (str "\n---\n") (text.drop 3) with
      | none =>
          have := by
            simp only [_parse_yaml_frontmatter] at h
            rw [if_pos h1] at h
            simp only [h2] at h
            exact h
          exact absurd (congrArg Prod.fst this) (by simp)
      | some ba =>
          cases h3 : parseBlockLines (splitLines ba.1) with
          | none =>
              have := by
                simp only [_parse_yaml_frontmatter] at h
                rw [if_pos h1] at h
                simp only [h2, h3] at h
                exact h
              exact absurd (congrArg Prod.fst this) (by simp)
          | some m2 =>
              have hp := parse_fm_eq text ba.1 ba.2 m2 h1 (by rw [h2]) h3
              rw [hp] at h
              obtain ⟨hm, hb⟩ := Prod.mk.injEq _ _ _ _ ▸ h
              have hm2 : m2 = m := Option.some.inj hm
              have hsfeq := splitFirst_eq (str "\n---\n") (text.drop 3) ba.1 ba.2
                (by rw [h2])
              have ht : text = str "---" ++ text.drop 3 := by
                obtain ⟨t, htp⟩ := List.isPrefixOf_iff_prefix.mp h1
                rw [← htp]
                rfl
              refine ⟨ba.1, ?_, by rw [h3, hm2]⟩
              rw [ht, hsfeq, hb]
              simp [List.append_assoc]
    · have hcon := by
        simp only [_parse_yaml_frontmatter] at h
        rw [if_neg h1] at h
        exact h
      exact absurd (congrArg Prod.fst hcon) (by simp)

/-- Witness for claim C7 at concrete inputs covering all four cases. -/
theorem C7_parse_total_witness :
    _parse_yaml_frontmatter (str "hello") = (none, str "hello") ∧
    _parse_yaml_frontmatter (str "---\nabc") = (none, str "---\nabc") ∧
    _parse_yaml_frontmatter (str "---\nbad\n---\nX") =
      (none, str "---\nbad\n---\nX") ∧
    (∃ b, str "---\na: b\n---\nX" = str "---" ++ (b ++ (str "\n---\n" ++ str "X")) ∧
       parseBlockLines (splitLines b) = some [(str "a", str "b")]) := by
  refine ⟨?_, ?_, ?_, ?_⟩
  · exact (C7_parse_total (str "hello")).1 (by decide)
  · exact (C7_parse_total (str "---\nabc")).2.1 (by decide) (by decide)
  · exact (C7_parse_total (str "---\nbad\n---\nX")).2.2.1 (str "\nbad") (str "X")
      (by decide) (by decide) (by decide)
  · exact (C7_parse_total (str "---\na: b\n---\nX")).2.2.2 [(str "a", str "b")]
      (str "X") (by decide)

/-- Claim C8: the agent transform's output block carries only a
carried-over description field (when the source block has one) plus the
fixed injected marker field `mode: subagent`; any other original field
such as `name` or `tools` is absent from the output; the remainder body is
preserved after the block; and a source with no parseable block receives
the marker field alone. -/
theorem C8_agent_transform (text : Str) :
    (∀ k v, (k, v) ∈ agentOutFields (_parse_yaml_frontmatter text).1 →
       k = str "description" ∨ k = str "mode") ∧
    (str "mode", str "subagent") ∈ agentOutFields (_parse_yaml_frontmatter text).1 ∧
    (∀ m, (_parse_yaml_frontmatter text).1 = some m →
       (∀ d, lookupKV (str "description") m = some d →
          (str "description", d) ∈ agentOutFields (some m)) ∧
       (str "name") ∉ (agentOutFields (some m)).map Prod.fst ∧
       (str "tools") ∉ (agentOutFields (some m)).map Prod.fst) ∧
    ((_parse_yaml_frontmatter text).1 = none →
       agentOutFields none = [(str "mode", str "subagent")]) ∧
    (∃ pre, agentTransformFile text = pre ++ (_parse_yaml_frontmatter text).2) := by
  have hkeys : ∀ fm, ∀ k v, (k, v) ∈ agentOutFields fm →
      k = str "description" ∨ k = str "mode" := by
    intro fm k v hm
    cases fm with
    | none =>
        simp only [agentOutFields, List.mem_singleton] at hm
        exact Or.inr (congrArg Prod.fst hm)
    | some m =>
        simp only [agentOutFields] at hm
        rcases List.mem_append.mp hm with h1 | h2
        · cases hl : lookupKV (str "description") m with
          | none =>
              simp only [hl] at h1
              simp at h1
          | some dd =>
              simp only [hl, List.mem_singleton] at h1
              exact Or.inl (congrArg Prod.fst h1)
        · simp only [List.mem_singleton] at h2
          exact Or.inr (congrArg Prod.fst h2)
  refine ⟨hkeys (_parse_yaml_frontmatter text).1, ?_, ?_, fun _ => rfl, ?_⟩
  · cases (_parse_yaml_frontmatter text).1 with
    | none => simp [agentOutFields]
    | some m => simp [agentOutFields]
  · intro m _
    refine ⟨?_, ?_, ?_⟩
    · intro d hl
      simp [agentOutFields, hl]
    · intro hmem
      rcases List.mem_map.mp hmem with ⟨e, he, hk⟩
      rcases hkeys (some m) e.1 e.2 he with h | h
      · rw [hk] at h
        exact absurd h (by decide)
      · rw [hk] at h
        exact absurd h (by decide)
    · intro hmem
      rcases List.mem_map.mp hmem with ⟨e, he, hk⟩
      rcases hkeys (some m) e.1 e.2 he with h | h
      · rw [hk] at h
        exact absurd h (by decide)
      · rw [hk] at h
        exact absurd h (by decide)
  · exact ⟨str "---\n" ++ renderBlock
      (agentOutFields (_parse_yaml_frontmatter text).1) ++ str "---\n", rfl⟩

/-- Witness for claim C8 at the spec's concrete agent scenario. -/
theorem C8_agent_transform_witness :
    (_parse_yaml_frontmatter
        (str "---\nname: x\ndescription: d\ntools: y\n---\n\nBody")).1 =
      some [(str "name", str "x"), (str "description", str "d"),
        (str "tools", str "y")] ∧
    (str "description", str "d") ∈ agentOutFields
      (some [(str "name", str "x"), (str "description", str "d"),
        (str "tools", str "y")]) ∧
    (str "name") ∉ (agentOutFields
      (some [(str "name", str "x"), (str "description", str "d"),
        (str "tools", str "y")])).map Prod.fst ∧
    (str "tools") ∉ (agentOutFields
      (some [(str "name", str "x"), (str "description", str "d"),
        (str "tools", str "y")])).map Prod.fst ∧
    (∃ pre, agentTransformFile
        (str "---\nname: x\ndescription: d\ntools: y\n---\n\nBody") =
      pre ++ (_parse_yaml_frontmatter
        (str "---\nname: x\ndescription: d\ntools: y\n---\n\nBody")).2) := by
  have hp : (_parse_yaml_frontmatter
      (str "---\nname: x\ndescription: d\ntools: y\n---\n\nBody")).1 =
      some [(str "name", str "x"), (str "description", str "d"),
        (str "tools", str "y")] := by decide
  have h3 := (C8_agent_transform
    (str "---\nname: x\ndescription: d\ntools: y\n---\n\nBody")).2.2.1
    [(str "name", str "x"), (str "description", str "d"), (str "tools", str "y")]
    hp
  refine ⟨hp, h3.1 (str "d") (by decide), h3.2.1, h3.2.2, ?_⟩
  exact (C8_agent_transform
    (str "---\nname: x\ndescription: d\ntools: y\n---\n\nBody")).2.2.2.2
